import Mathlib

/-!
# A shallow embedding of the cdson DSON parser (src/src/sniff.c, src/cdson.c)

This file embeds the recursive-descent DSON parser of `src/src/sniff.c`
(the recoverable-error variant) together with the dictionary accessor
`dson_dict_get` of `src/cdson.c`, and proves properties of the embedding.

Modelling conventions:
- C `double` is modelled as `ℚ` (all arithmetic the parser performs on
  doubles — small-integer accumulation, division by powers of two, and
  `pow(8, k)` for integral `k` — is exact in binary floating point for the
  magnitudes exercised here, so exact rational arithmetic is faithful).
- The input buffer is a `List Char` of the payload bytes (indices
  `0 .. length-1`); the NUL terminator that `dson_parse` checks at
  `input[length]` lies just beyond the list, so reading at an index `≥`
  the list length yields `'\x00'`, exactly as the C code reads the
  terminator through `peek` once `dson_parse` has validated it.
- The cursor `Context` holds the buffer, the current offset (the C
  `c->s - c->beginning`), and the safety flag (the C field named
  `unsafe`, which is a reserved word in Lean, so it is called `danger`
  here). `c->s_end - c->beginning` is the buffer length.
- Heap allocations of the C code are tracked by an explicit ledger: a
  `Nat` counting the currently live allocations, threaded through every
  function that calls `CALLOC`/`free` on value memory. Error-message
  allocations (`angrily_waste_memory`, `strdup`) are not counted: their
  ownership passes to the caller by design.
- Loops of the C code are embedded as fuel recursion; every call site
  passes fuel strictly larger than the number of iterations the loop can
  make (proved in the adequacy lemmas below), so the `fuel = 0` fallback
  is unreachable from `dson_parse`.
- Error results mirror the `ERROR` macro: `PError.at pos msg` carries
  `c->s - c->beginning` at the moment the macro runs and the (unformatted,
  apostrophe-free rendering of the) message string; `PError.plain` is the
  one `strdup` error of `dson_parse` that carries no position.
- Sequenced C statements are written as nested applications rather than
  `let` bindings, and pairs are consumed through `.1`/`.2`; this keeps
  every definition directly scrutinable by case analysis in the proofs.
-/

namespace Cdson

/-- The scan state: `buf` is the payload (`beginning .. s_end`), `off` is
`c->s - c->beginning`, `danger` is the C safety-flag field (named `unsafe`
in the C source). -/
structure Context where
  buf : List Char
  off : Nat
  danger : Bool
deriving Repr, DecidableEq

/-- Parse errors: `at` mirrors the `ERROR` macro of sniff.c
(`"at input char #%ld: " fmt`, with the offset `c->s - c->beginning`);
`plain` mirrors the bare `strdup` in `dson_parse`; `fuel` is the
out-of-fuel artifact of the embedding, proved unreachable from
`dson_parse` (see the adequacy lemmas). -/
inductive PError where
  | at (pos : Nat) (msg : String)
  | plain (msg : String)
  | fuel
deriving Repr, DecidableEq

/-- An error is position-annotated (produced by the `ERROR` macro). -/
def PError.positioned : PError → Bool
  | .at _ _ => true
  | _ => false

/-- `peek`: `*c->s`. Reading at `c.buf.length` yields the NUL terminator
that `dson_parse` validated; the parser never reads past `s_end`. -/
def peek (c : Context) : Char :=
  c.buf.getD c.off '\x00'

/-- `p_chars`: returns the next `n` bytes and advances, or `NULL` (here
`none`, cursor unmoved) if fewer than `n` bytes remain before `s_end`. -/
def p_chars (c : Context) (n : Nat) : Option (List Char × Context) :=
  if c.off + n > c.buf.length then none
  else some ((c.buf.drop c.off).take n, { c with off := c.off + n })

/-- `p_char(c)` used for its side effect only (`(void)` call position):
advances by one byte when possible, as `p_chars(c, 1)` would. -/
def p_char_ignore (c : Context) : Context :=
  if c.off + 1 > c.buf.length then c else { c with off := c.off + 1 }

/-- The whitespace set of `maybe_p_whitespace`: `strchr(" \t\n\r\v\f", pivot)`.
(The code tests `pivot == '\0'` first because `strchr` would find the
terminator of that six-byte set.) -/
def isWS (ch : Char) : Bool :=
  ch = ' ' ∨ ch = '\t' ∨ ch = '\n' ∨ ch = '\r' ∨ ch = '\x0b' ∨ ch = '\x0c'

/-- The loop body of `maybe_p_whitespace`, fuel-recursive (the C local
`pivot` is written out as `peek c`). -/
def wsLoop : Nat → Context → Context
  | 0, c => c
  | f + 1, c =>
    if peek c = '\x00' then c
    else if ¬ isWS (peek c) then c
    else wsLoop f (p_char_ignore c)

/-- `maybe_p_whitespace` (the `WOW` macro): consume zero or more
whitespace bytes; never fails. -/
def maybe_p_whitespace (c : Context) : Context :=
  wsLoop (c.buf.length + 1 - c.off) c

/-- Is `ch` an octal digit: the guard `peek(c) >= '0' && peek(c) <= '7'`. -/
def isOctal (ch : Char) : Bool :=
  '0' ≤ ch ∧ ch ≤ '7'

/-- The numeric value of a digit character, as the C `*s - '0'`. -/
def digitQ (ch : Char) : ℚ :=
  (ch.toNat - '0'.toNat : ℕ)

/-- The loop of `p_octal`: `n = n * 010 + (peek - '0')` per octal digit. -/
def octLoop : Nat → ℚ → Context → ℚ × Context
  | 0, n, c => (n, c)
  | f + 1, n, c =>
    if isOctal (peek c) then octLoop f (n * 8 + digitQ (peek c)) (p_char_ignore c)
    else (n, c)

/-- `p_octal`: consume a maximal octal-digit run, accumulating base 8;
never fails (an empty run yields the initial 0, overwriting `*out`). -/
def p_octal (c : Context) : ℚ × Context :=
  octLoop (c.buf.length + 1 - c.off) 0 c

/-! ## The value model (`dson_value`, `dson_dict`) and the free/alloc ledger -/

/-- The tagged union `dson_value` of cdson.h: `DSON_STRING` (an owned byte
buffer), `DSON_DOUBLE`, `DSON_BOOL`, `DSON_NONE`, `DSON_ARRAY` (a
NUL-terminated `dson_value**`, here a list), `DSON_DICT` (parallel
key/value arrays, here a list of pairs). -/
inductive DsonValue where
  | string (s : List Char)
  | double (n : ℚ)
  | bool (b : Bool)
  | none
  | array (elts : List DsonValue)
  | dict (entries : List (List Char × DsonValue))
deriving Repr

mutual

/-- The number of `free` calls `dson_free` of sniff.c performs on a tree:
a string node frees its byte buffer and the node; a double/bool/none
frees the node; `array_free` frees each element recursively plus the
`dson_value**` buffer, then the node; `dict_free` frees each key and each
value, then the `keys` and `values` buffers and the `dson_dict` shell,
then the node. -/
def freeCount : DsonValue → Nat
  | .string _ => 2
  | .double _ => 1
  | .bool _ => 1
  | .none => 1
  | .array elts => freeCountList elts + 2
  | .dict entries => freeCountEntries entries + 4

def freeCountList : List DsonValue → Nat
  | [] => 0
  | v :: r => freeCount v + freeCountList r

def freeCountEntries : List (List Char × DsonValue) → Nat
  | [] => 0
  | e :: r => 1 + freeCount e.2 + freeCountEntries r

end

mutual

/-- The number of heap blocks the parser of sniff.c allocates to build a
tree: `CALLOC(ret)` in `p_value` for every node, plus `CALLOC(out)` in
`p_string` for a string buffer, `CALLOC(array)` in `p_array` for the
element pointer buffer, and `CALLOC(keys)`, `CALLOC(values)`,
`CALLOC(dict)` in `p_dict`, plus one string buffer per dictionary key. -/
def allocCount : DsonValue → Nat
  | .string _ => 2
  | .double _ => 1
  | .bool _ => 1
  | .none => 1
  | .array elts => allocCountList elts + 2
  | .dict entries => allocCountEntries entries + 4

def allocCountList : List DsonValue → Nat
  | [] => 0
  | v :: r => allocCount v + allocCountList r

def allocCountEntries : List (List Char × DsonValue) → Nat
  | [] => 0
  | e :: r => 1 + allocCount e.2 + allocCountEntries r

end

/-- Outcome of one `dson_free(v)` call. `ok handle frees`: the call
returned; `handle` is the state of the `dson_value **v` argument after
the call (`Option.none` = the pointer itself was NULL, `some h` = it
points at `h`), `frees` counts the `free` calls performed. `nullDeref`:
the call crashed reading `(*v)->type` through a NULL `*v` — the C code
only guards `v == NULL`, not `*v == NULL` — and this read happens before
any `free` call, so a crashing call performs zero frees. -/
inductive FreeOutcome where
  | ok (handle : Option (Option DsonValue)) (frees : Nat)
  | nullDeref
deriving Repr

/-- `dson_free` of sniff.c on a handle: `if (v == NULL) return;` then
dispatch on `(*v)->type`, free the payload recursively, `free(*v)`, and
clear the handle with `*v = NULL`. -/
def dson_free : Option (Option DsonValue) → FreeOutcome
  | Option.none => .ok Option.none 0
  | some Option.none => .nullDeref
  | some (some t) => .ok (some Option.none) (freeCount t)

/-- `dson_dict_get` of src/cdson.c. `d = Option.none` models a NULL dict
pointer (the guarded `d == NULL` case). `v0` is the value of the local
`dson_value *v`, which the C function never initializes: when no key
matches, the function returns that indeterminate value, so it is an
explicit parameter here. The scan is a full left-to-right fold — it does
not stop at the first match, so the last match wins. `!strcoll(key, k)`
in the C locale is byte-string equality. -/
def dson_dict_get (d : Option (List (List Char × DsonValue))) (key : List Char)
    (v0 : Option DsonValue) : Option DsonValue :=
  match d with
  | Option.none => Option.none
  | some entries => entries.foldl (fun v e => if e.1 = key then some e.2 else v) v0

/-! ## UTF-8 encoding (`bytes_needed`, `write_utf8`) -/

/-- `bytes_needed` of sniff.c, with the source octal literals `0200`,
`04000`, `0200000`, `04200000` (= 0x80, 0x800, 0x10000, 0x110000). -/
def bytes_needed (inp : Nat) : Nat :=
  if inp < 0o200 then 1
  else if inp < 0o4000 then 2
  else if inp < 0o200000 then 3
  else if inp < 0o4200000 then 4
  else 0

/-- `write_utf8` of sniff.c: the bytes written to `buf` (as `Nat` byte
values), produced by the same shift/mask packing as the source
(`0360`/`0340`/`0300` lead bytes, `0200` continuation bytes, `& 077`
six-bit groups, `>>= 06` between them; the 1-byte form is
`point & 0177`). -/
def write_utf8 (point : Nat) : List Nat :=
  if bytes_needed point = 4 then
    [0o360 ||| ((point >>> 18) &&& 0o7), 0o200 ||| ((point >>> 12) &&& 0o77),
      0o200 ||| ((point >>> 6) &&& 0o77), 0o200 ||| (point &&& 0o77)]
  else if bytes_needed point = 3 then
    [0o340 ||| ((point >>> 12) &&& 0o17), 0o200 ||| ((point >>> 6) &&& 0o77),
      0o200 ||| (point &&& 0o77)]
  else if bytes_needed point = 2 then
    [0o300 ||| ((point >>> 6) &&& 0o37), 0o200 ||| (point &&& 0o77)]
  else if bytes_needed point = 1 then
    [point &&& 0o177]
  else
    []

/-! ## `handle_escaped` -/

/-- The `for (i = 0; i < 6; i++)` loop of `handle_escaped`, mirroring the
source bug exactly: the statement `acc *= 010` is dead — `p_octal(c, &acc)`
stores its own freshly-zeroed run value over `acc` — and each call
consumes a maximal octal run from the live cursor `c`, wherever it
points, so the result is the value of the last run consumed. -/
def escLoop : Nat → ℚ → Context → ℚ × Context
  | 0, acc, c => (acc, c)
  | k + 1, _, c => escLoop k (p_octal c).1 (p_octal c).2

/-- The C cast `(uint32_t)acc` for the accumulator (a nonnegative integer
rational in every reachable state; truncation, wrapped to 32 bits). -/
def castU32 (q : ℚ) : Nat := q.num.toNat % 2 ^ 32

/-- The tail of `handle_escaped` after the accumulator loop: encode with
`write_utf8` and fail with `"malformed unicode escape"` when
`bytes_needed` returned 0. -/
def handle_escaped_core (acc : ℚ) (c1 : Context) : Except PError (List Nat × Context) :=
  if (write_utf8 (castU32 acc)).length = 0 then
    .error (.at c1.off "malformed unicode escape")
  else .ok (write_utf8 (castU32 acc), c1)

/-- `handle_escaped` of sniff.c: run the 6-iteration accumulator loop on
the live cursor, then encode. Returns the encoded bytes (which the
caller appends at `out + i`). -/
def handle_escaped (c : Context) : Except PError (List Nat × Context) :=
  handle_escaped_core (escLoop 6 0 c).1 (escLoop 6 0 c).2

/-! ## `p_empty` and `p_bool` -/

/-- `strcmp(lit, s) == 0` where `s` points into the buffer at index `i`
and `lit` is a NUL-free literal: all of `lit` must match, and the byte
after the match must be the terminator (or the end of the buffer, where
the validated NUL terminator sits). -/
def strcmp0 : List Char → Context → Nat → Bool
  | [], c, i => c.buf.getD i '\x00' = '\x00'
  | ch :: rest, c, i =>
    if c.buf.getD i '\x00' = ch then strcmp0 rest c (i + 1) else false

/-- `p_empty` of sniff.c: consume `strlen("empty")` bytes and require
`strcmp("empty", s) == 0` (note `strcmp`, not `strncmp`: the byte after
the keyword must be NUL). Produces no payload (the none value is built by
`p_value`). -/
def p_empty (c : Context) : Except PError (Unit × Context) :=
  match p_chars c 5 with
  | Option.none => .error (.at c.off "not enough characters to produce empty")
  | some sc =>
    if ¬ strcmp0 ("empty".toList) c c.off then
      .error (.at sc.2.off "expected empty, got something else")
    else .ok ((), sc.2)

/-- `p_bool` of sniff.c: read 2 bytes; `"ye"` requires a third byte `'s'`,
`"no"` succeeds as-is, anything else is an error. -/
def p_bool (c : Context) : Except PError (Bool × Context) :=
  match p_chars c 2 with
  | Option.none => .error (.at c.off "end of input while producing bool")
  | some sc =>
    if sc.1.getD 0 '\x00' = 'y' ∧ sc.1.getD 1 '\x00' = 'e' then
      match p_chars sc.2 1 with
      | Option.none => .error (.at sc.2.off "end of input while producing bool")
      | some sc2 =>
        if ¬ sc2.1.getD 0 '\x00' = 's' then .error (.at sc2.2.off "expected yes, got ye-")
        else .ok (true, sc2.2)
    else if sc.1.getD 0 '\x00' = 'n' ∧ sc.1.getD 1 '\x00' = 'o' then .ok (false, sc.2)
    else .error (.at sc.2.off "expected bool")

/-! ## `p_string`: the scan pass and the decode pass -/

/-- The scanning `while (01)` loop of `p_string`: walk forward from just
after the opening quote, consuming escape pairs (`\u` additionally
consumes 6 bytes), until the unescaped closing quote. Returns the index
of the closing quote (the C `end` pointer) and the advanced cursor. The
C code also tallies `num_escaped`, which only sizes the `CALLOC(out)`
block; the ledger models that block as one allocation, so the tally is
not reproduced. -/
def scanLoop : Nat → Context → Except PError (Nat × Context)
  | 0, _ => .error .fuel
  | f + 1, c =>
    match p_chars c 1 with
    | Option.none => .error (.at c.off "missing closing quote delimiter on string")
    | some sc =>
      if sc.1.getD 0 '\x00' = '"' then .ok (sc.2.off - 1, sc.2)
      else if sc.1.getD 0 '\x00' = '\\' then
        match p_chars sc.2 1 with
        | Option.none => .error (.at sc.2.off "missing closing quote delimiter on string")
        | some sc2 =>
          if sc2.1.getD 0 '\x00' = 'u' then
            match p_chars sc2.2 6 with
            | Option.none =>
              .error (.at sc2.2.off "missing closing quote delimiter on string")
            | some sc3 => scanLoop f sc3.2
          else scanLoop f sc2.2
      else scanLoop f sc.2

/-- The decoding `for (p = start; p < end; p++)` loop of `p_string`.
`p` indexes the raw span; `out` accumulates the decoded bytes (all writes
of the C code are sequential at `out + i`). The cursor `c` is the live
parse cursor — already past the closing quote — which `handle_escaped`
reads and advances; this mirrors the source exactly (`\u` payload bytes
are *not* taken from the span). An escape consumes two span positions
(`p++` in the branch plus the loop `p++`); in particular the six digits
after a `\u` in the span are re-copied literally by later iterations. -/
def decodeLoop : Nat → Context → Nat → Nat → List Char → Except PError (List Char × Context)
  | 0, _, _, _, _ => .error .fuel
  | f + 1, c, p, endIdx, out =>
    if p < endIdx then
      if ¬ c.buf.getD p '\x00' = '\\' then
        decodeLoop f c (p + 1) endIdx (out ++ [c.buf.getD p '\x00'])
      else
        if c.buf.getD (p + 1) '\x00' = '"' ∨ c.buf.getD (p + 1) '\x00' = '\\' ∨
            c.buf.getD (p + 1) '\x00' = '/' then
          decodeLoop f c (p + 2) endIdx (out ++ [c.buf.getD (p + 1) '\x00'])
        else if c.buf.getD (p + 1) '\x00' = 'b' ∧ c.danger then
          decodeLoop f c (p + 2) endIdx (out ++ ['\x08'])
        else if c.buf.getD (p + 1) '\x00' = 'f' then
          decodeLoop f c (p + 2) endIdx (out ++ ['\x0c'])
        else if c.buf.getD (p + 1) '\x00' = 'n' then
          decodeLoop f c (p + 2) endIdx (out ++ ['\n'])
        else if c.buf.getD (p + 1) '\x00' = 'r' then
          decodeLoop f c (p + 2) endIdx (out ++ ['\r'])
        else if c.buf.getD (p + 1) '\x00' = 't' then
          decodeLoop f c (p + 2) endIdx (out ++ ['\t'])
        else if c.buf.getD (p + 1) '\x00' = 'u' ∧ c.danger then
          match handle_escaped c with
          | .error err => .error err
          | .ok bc => decodeLoop f bc.2 (p + 2) endIdx (out ++ bc.1.map Char.ofNat)
        else .error (.at c.off "unrecognized or forbidden escape")
    else .ok (out, c)

/-- `p_string` of sniff.c, ledger-threaded: require the opening quote,
run the scan pass, `CALLOC(out)` (ledger `+1`), run the decode pass over
the span `[start+1, end)`; on a decode error the block is freed again
(`free(out)`, the written `live + 1 - 1` mirroring CALLOC then free)
before the error propagates. -/
def p_string (c : Context) (live : Nat) : Except (PError × Nat) (List Char × Context × Nat) :=
  match p_chars c 1 with
  | Option.none => .error (.at c.off "expected string, got end of input", live)
  | some sc =>
    if ¬ sc.1.getD 0 '\x00' = '"' then
      .error (.at sc.2.off "malformed string - missing quote", live)
    else
      match scanLoop (sc.2.buf.length + 1 - sc.2.off) sc.2 with
      | .error e => .error (e, live)
      | .ok ec =>
        match decodeLoop (ec.1 + 2 - c.off) ec.2 (c.off + 1) ec.1 [] with
        | .error e => .error (e, live + 1 - 1)
        | .ok oc => .ok (oc.1, oc.2, live + 1)

/-! ## `p_double` and its specification-side counterpart

The sequential locals of the C function are expressed as the stage
definitions `pd_c1` (after the sign), `pd_c2` (after leading
whitespace), `pd_int` (accumulator and cursor after the integer part),
`pd_c3` (after trailing whitespace); the fractional and exponent blocks
are `p_double_frac` and `p_double_exp`. -/

/-- The fractional-digit loop of `p_double`:
`n += (*p_char(c) - '0') / divisor; divisor *= 02;` per octal digit. -/
def fracLoop : Nat → ℚ → ℚ → Context → ℚ × ℚ × Context
  | 0, n, divisor, c => (n, divisor, c)
  | f + 1, n, divisor, c =>
    if isOctal (peek c) then
      fracLoop f (n + digitQ (peek c) / divisor) (divisor * 2) (p_char_ignore c)
    else (n, divisor, c)

/-- The C `pow(010, power)` for the integral-valued rational `power`
(exact for the integral exponents the parser produces). -/
def pow8 (power : ℚ) : ℚ := (8 : ℚ) ^ power.num

/-- Cursor after the optional leading `'-'` of `p_double`. -/
def pd_c1 (c0 : Context) : Context :=
  if peek c0 = '-' then p_char_ignore c0 else c0

/-- Cursor after the whitespace following the sign. -/
def pd_c2 (c0 : Context) : Context :=
  maybe_p_whitespace (pd_c1 c0)

/-- Integer part of `p_double`: a lone `'0'` consumes one byte and leaves
the accumulator 0; otherwise `p_octal`. -/
def pd_int (c0 : Context) : ℚ × Context :=
  if peek (pd_c2 c0) = '0' then ((0 : ℚ), p_char_ignore (pd_c2 c0))
  else p_octal (pd_c2 c0)

/-- Cursor after the whitespace following the integer part. -/
def pd_c3 (c0 : Context) : Context :=
  maybe_p_whitespace (pd_int c0).2

/-- The fractional block of `p_double` (everything inside
`if (peek(c) == '.')`), returning the updated accumulator and cursor. -/
def p_double_frac (n : ℚ) (c3 : Context) : Except PError (ℚ × Context) :=
  if peek c3 = '.' then
    if ¬ isOctal (peek (p_char_ignore c3)) then
      .error (.at (p_char_ignore c3).off "bad octal character")
    else
      .ok ((fracLoop ((p_char_ignore c3).buf.length + 1 - (p_char_ignore c3).off)
              n 8 (p_char_ignore c3)).1,
        maybe_p_whitespace
          (fracLoop ((p_char_ignore c3).buf.length + 1 - (p_char_ignore c3).off)
              n 8 (p_char_ignore c3)).2.2)
  else .ok (n, c3)

/-- Cursor after the optional exponent sign (the C
`if (peek == '+') p_char; else if (peek == '-') { powneg = true; p_char; }`). -/
def pde_c7 (c6 : Context) : Context :=
  if peek c6 = '+' ∨ peek c6 = '-' then p_char_ignore c6 else c6

/-- Cursor after the whitespace following the exponent sign. -/
def pde_c8 (c6 : Context) : Context :=
  maybe_p_whitespace (pde_c7 c6)

/-- The exponent block of `p_double` (everything inside
`if (peek(c) == 'v' || peek(c) == 'V')`), including the final
`*out = isneg ? -n : n`. `strncasecmp(s, "very", 4) == 0` is rendered as
lowercasing the four consumed bytes. -/
def p_double_exp (isneg : Bool) (n : ℚ) (c5 : Context) : Except PError (ℚ × Context) :=
  if peek c5 = 'v' ∨ peek c5 = 'V' then
    match p_chars c5 4 with
    | Option.none => .error (.at c5.off "end of input while parsing number")
    | some sc6 =>
      if ¬ sc6.1.map Char.toLower = "very".toList then
        .error (.at sc6.2.off "tried to parse very, got something else")
      else if ¬ isOctal (peek (pde_c8 sc6.2)) then
        .error (.at (pde_c8 sc6.2).off "bad octal character")
      else
        .ok ((if isneg then
                -(n * pow8 (if peek sc6.2 = '-' then -(p_octal (pde_c8 sc6.2)).1
                            else (p_octal (pde_c8 sc6.2)).1))
              else
                n * pow8 (if peek sc6.2 = '-' then -(p_octal (pde_c8 sc6.2)).1
                          else (p_octal (pde_c8 sc6.2)).1)),
          (p_octal (pde_c8 sc6.2)).2)
  else .ok ((if isneg then -n else n), c5)

/-- `p_double` of sniff.c: optional leading minus, whitespace, integer
part, whitespace, optional fractional block, optional exponent block,
final negation. -/
def p_double (c0 : Context) : Except PError (ℚ × Context) :=
  match p_double_frac (pd_int c0).1 (pd_c3 c0) with
  | .error e => .error e
  | .ok nc5 => p_double_exp (peek c0 = '-') nc5.1 nc5.2

/-! ### Specification-side number semantics (claim C1)

These definitions restate the *spec's* number formula — base-8 value of
the integer octal-run (a lone `'0'` contributing 0), fractional digits
weighted `d/8, d/16, d/32, …` (divisor starting at 8 and doubling per
digit), multiplication by `8^exponent` with an optional sign, and final
negation — to be compared with `p_double` above. -/

/-- Collect a maximal octal-digit run as the list of its digit
characters. -/
def octalRunF : Nat → Context → List Char × Context
  | 0, c => ([], c)
  | f + 1, c =>
    if isOctal (peek c) then
      (peek c :: (octalRunF f (p_char_ignore c)).1, (octalRunF f (p_char_ignore c)).2)
    else ([], c)

/-- A maximal octal-digit run at the cursor. -/
def octalRun (c : Context) : List Char × Context :=
  octalRunF (c.buf.length + 1 - c.off) c

/-- The base-8 (natural-number) value of an octal-digit run. -/
def octValueN (ds : List Char) : ℕ :=
  ds.foldl (fun n d => n * 8 + (d.toNat - '0'.toNat)) 0

/-- Fractional digits weighted `d / divisor` with the divisor starting at
the given value and doubling for each digit — weights `d/8, d/16, d/32, …`
when started at 8. -/
def fracValue : List Char → ℚ → ℚ
  | [], _ => 0
  | d :: ds, divisor => digitQ d / divisor + fracValue ds (divisor * 2)

/-- The spec-side number formula: `sign · ((int + frac) · 8^exponent)`,
with an integer exponent negated when its sign was `'-'`, and no
exponent factor when no `very` clause is present. -/
def specNumber (isneg : Bool) (intDs fracDs : List Char)
    (expPart : Option (Bool × List Char)) : ℚ :=
  (if isneg then -1 else 1) *
    (((octValueN intDs : ℕ) + fracValue fracDs 8) *
      (match expPart with
       | Option.none => 1
       | some pe =>
         (8 : ℚ) ^ ((if pe.1 then -1 else 1) * (octValueN pe.2 : ℤ))))

/-- Integer part, spec side: the digit run is empty for a lone `'0'`. -/
def pd_int_spec (c0 : Context) : List Char × Context :=
  if peek (pd_c2 c0) = '0' then (([] : List Char), p_char_ignore (pd_c2 c0))
  else octalRun (pd_c2 c0)

/-- The fractional block, spec side: same control flow as
`p_double_frac`, collecting the digit run. -/
def p_double_frac_spec (c3 : Context) : Except PError (List Char × Context) :=
  if peek c3 = '.' then
    if ¬ isOctal (peek (p_char_ignore c3)) then
      .error (.at (p_char_ignore c3).off "bad octal character")
    else
      .ok ((octalRun (p_char_ignore c3)).1,
        maybe_p_whitespace (octalRun (p_char_ignore c3)).2)
  else .ok ([], c3)

/-- The exponent block, spec side: same control flow as `p_double_exp`,
collecting the sign and digit run. -/
def p_double_exp_spec (c5 : Context) : Except PError (Option (Bool × List Char) × Context) :=
  if peek c5 = 'v' ∨ peek c5 = 'V' then
    match p_chars c5 4 with
    | Option.none => .error (.at c5.off "end of input while parsing number")
    | some sc6 =>
      if ¬ sc6.1.map Char.toLower = "very".toList then
        .error (.at sc6.2.off "tried to parse very, got something else")
      else if ¬ isOctal (peek (pde_c8 sc6.2)) then
        .error (.at (pde_c8 sc6.2).off "bad octal character")
      else
        .ok (some (peek sc6.2 = '-', (octalRun (pde_c8 sc6.2)).1),
          (octalRun (pde_c8 sc6.2)).2)
  else .ok (Option.none, c5)

/-- The spec-side number parser: identical consumption and errors to
`p_double`, value computed by the closed formula `specNumber`. -/
def p_double_spec (c0 : Context) : Except PError (ℚ × Context) :=
  match p_double_frac_spec (maybe_p_whitespace (pd_int_spec c0).2) with
  | .error e => .error e
  | .ok fc5 =>
    match p_double_exp_spec fc5.2 with
    | .error e => .error e
    | .ok ec9 =>
      .ok (specNumber (peek c0 = '-') (pd_int_spec c0).1 fc5.1 ec9.1, ec9.2)

/-! ## The mutually recursive structural parsers

Fuel decreases on every mutual call and loop iteration; `dson_parse`
supplies `3 * length + 3`, which the adequacy lemmas below prove is never
exhausted. The `Nat` threaded beside the cursor is the allocation
ledger; arithmetic like `live + 3 - 3` mirrors the source allocation and
free calls one-for-one rather than being simplified away. -/

mutual

/-- `p_value` of sniff.c: `CALLOC(ret)` (ledger `+1`), dispatch on the
lookahead byte (`c->s[01]` disambiguates `so`/`such`), and on any branch
failure `free(ret)` (ledger `-1`) before propagating. -/
def p_value : Nat → Context → Nat → Except (PError × Nat) (DsonValue × Context × Nat)
  | 0, _, live => .error (.fuel, live)
  | f + 1, c, live =>
    if peek c = '"' then
      match p_string c (live + 1) with
      | .error el => .error (el.1, el.2 - 1)
      | .ok scl => .ok (.string scl.1, scl.2.1, scl.2.2)
    else if peek c = '-' ∨ isOctal (peek c) then
      match p_double c with
      | .error e => .error (e, live + 1 - 1)
      | .ok nc => .ok (.double nc.1, nc.2, live + 1)
    else if peek c = 'y' ∨ peek c = 'n' then
      match p_bool c with
      | .error e => .error (e, live + 1 - 1)
      | .ok bc => .ok (.bool bc.1, bc.2, live + 1)
    else if peek c = 'e' then
      match p_empty c with
      | .error e => .error (e, live + 1 - 1)
      | .ok uc => .ok (.none, uc.2, live + 1)
    else if peek c = 's' then
      if c.buf.getD (c.off + 1) '\x00' = 'o' then
        match p_array f c (live + 1) with
        | .error el => .error (el.1, el.2 - 1)
        | .ok acl => .ok (.array acl.1, acl.2.1, acl.2.2)
      else if c.buf.getD (c.off + 1) '\x00' = 'u' then
        match p_dict f c (live + 1) with
        | .error el => .error (el.1, el.2 - 1)
        | .ok dcl => .ok (.dict dcl.1, dcl.2.1, dcl.2.2)
      else .error (.at c.off "unable to determine value type", live + 1 - 1)
    else .error (.at c.off "unable to determine value type", live + 1 - 1)
termination_by structural f c live => f

/-- `p_array` of sniff.c: `CALLOC(array)` (ledger `+1`; note the two
`"so"`-check error paths return *without* freeing it, as in the source),
then the element loop unless the next byte is `'m'`, then the closing
`"many"`; failures after the loop run `array_free` (each element plus the
buffer). -/
def p_array : Nat → Context → Nat → Except (PError × Nat) (List DsonValue × Context × Nat)
  | 0, _, live => .error (.fuel, live)
  | f + 1, c, live =>
    match p_chars c 2 with
    | Option.none => .error (.at c.off "expected array, got end of input", live + 1)
    | some sc =>
      if ¬ sc.1 = "so".toList then
        .error (.at sc.2.off "malformed array: expected so", live + 1)
      else
        match (if ¬ peek (maybe_p_whitespace sc.2) = 'm' then
                 p_arrayLoop f (maybe_p_whitespace sc.2) [] (live + 1)
               else .ok ([], maybe_p_whitespace sc.2, live + 1)) with
        | .error el => .error el
        | .ok acl =>
          match p_chars acl.2.1 4 with
          | Option.none =>
            .error (.at acl.2.1.off "end of input while parsing array (missing many?)",
              acl.2.2 - (freeCountList acl.1 + 1))
          | some sc4 =>
            if ¬ sc4.1 = "many".toList then
              .error (.at sc4.2.off "expected many", acl.2.2 - (freeCountList acl.1 + 1))
            else .ok (acl.1, sc4.2, acl.2.2)
termination_by structural f c live => f

/-- The element loop of `p_array`: parse a value, then `and`/`also`
continue or break to the `"many"` check; every failure runs
`array_free` over the elements accumulated so far plus the buffer. -/
def p_arrayLoop : Nat → Context → List DsonValue → Nat →
    Except (PError × Nat) (List DsonValue × Context × Nat)
  | 0, _, _, live => .error (.fuel, live)
  | f + 1, c, acc, live =>
    match p_value f c live with
    | .error el => .error (el.1, el.2 - (freeCountList acc + 1))
    | .ok vcl =>
      if ¬ peek (maybe_p_whitespace vcl.2.1) = 'a' then
        .ok (acc ++ [vcl.1], maybe_p_whitespace vcl.2.1, vcl.2.2)
      else
        match p_chars (maybe_p_whitespace vcl.2.1) 3 with
        | Option.none =>
          .error (.at (maybe_p_whitespace vcl.2.1).off
              "end of input while parsing array (missing many?)",
            vcl.2.2 - (freeCountList (acc ++ [vcl.1]) + 1))
        | some sc3 =>
          if sc3.1 = "and".toList then
            p_arrayLoop f (maybe_p_whitespace sc3.2) (acc ++ [vcl.1]) vcl.2.2
          else if ¬ sc3.1 = "als".toList then
            .error (.at sc3.2.off "tried to parse also, got something else",
              vcl.2.2 - (freeCountList (acc ++ [vcl.1]) + 1))
          else
            match p_chars sc3.2 1 with
            | Option.none =>
              .error (.at sc3.2.off "end of input while parsing array (missing many?)",
                vcl.2.2 - (freeCountList (acc ++ [vcl.1]) + 1))
            | some sc4 =>
              if ¬ sc4.1.getD 0 '\x00' = 'o' then
                .error (.at sc4.2.off "tried to parse also, got als-",
                  vcl.2.2 - (freeCountList (acc ++ [vcl.1]) + 1))
              else p_arrayLoop f (maybe_p_whitespace sc4.2) (acc ++ [vcl.1]) vcl.2.2
termination_by structural f c acc live => f

/-- `p_dict` of sniff.c: `CALLOC` of `keys`, `values` and the dict shell
(ledger `+3`), the `"such"` keyword (failures run `BURY`, freeing the
three empty shells, written `live + 3 - 3`), the entry loop, the closing
`"wow"` (failures run `BURY` over all stored entries plus the shells). -/
def p_dict : Nat → Context → Nat →
    Except (PError × Nat) (List (List Char × DsonValue) × Context × Nat)
  | 0, _, live => .error (.fuel, live)
  | f + 1, c, live =>
    match p_chars c 4 with
    | Option.none => .error (.at c.off "expected dict, but got end of input", live + 3 - 3)
    | some sc =>
      if ¬ sc.1 = "such".toList then .error (.at sc.2.off "expected such", live + 3 - 3)
      else
        match p_dictLoop f sc.2 [] (live + 3) with
        | .error el => .error el
        | .ok ecl =>
          match p_chars ecl.2.1 3 with
          | Option.none =>
            .error (.at ecl.2.1.off "end of input while looking for closing wow",
              ecl.2.2 - (freeCountEntries ecl.1 + 3))
          | some sc3 =>
            if ¬ sc3.1 = "wow".toList then
              .error (.at sc3.2.off "expected wow", ecl.2.2 - (freeCountEntries ecl.1 + 3))
            else .ok (ecl.1, sc3.2, ecl.2.2)
termination_by structural f c live => f

/-- The entry loop of `p_dict`: whitespace, key string, `"is"`, value,
store the pair, then a single-byte separator (`, . ! ?`) continues the
loop. Failure paths run `BURY`, which frees the *stored* keys and values
plus the three shells — the just-parsed key `k` of the current iteration
is *not* stored yet and is not freed by `BURY`, so on the `"is"`-check
and value failure paths its allocation stays in the ledger (the leak of
claim C4). -/
def p_dictLoop : Nat → Context → List (List Char × DsonValue) → Nat →
    Except (PError × Nat) (List (List Char × DsonValue) × Context × Nat)
  | 0, _, _, live => .error (.fuel, live)
  | f + 1, c, entries, live =>
    match p_string (maybe_p_whitespace c) live with
    | .error el => .error (el.1, el.2 - (freeCountEntries entries + 3))
    | .ok kcl =>
      match p_chars (maybe_p_whitespace kcl.2.1) 2 with
      | Option.none =>
        .error (.at (maybe_p_whitespace kcl.2.1).off
            "end of input while reading dict (missing wow?)",
          kcl.2.2 - (freeCountEntries entries + 3))
      | some sc4 =>
        if ¬ sc4.1 = "is".toList then
          .error (.at sc4.2.off "expected is", kcl.2.2 - (freeCountEntries entries + 3))
        else
          match p_value f (maybe_p_whitespace sc4.2) kcl.2.2 with
          | .error el => .error (el.1, el.2 - (freeCountEntries entries + 3))
          | .ok vcl =>
            if peek (maybe_p_whitespace vcl.2.1) = ',' ∨
                peek (maybe_p_whitespace vcl.2.1) = '.' ∨
                peek (maybe_p_whitespace vcl.2.1) = '!' ∨
                peek (maybe_p_whitespace vcl.2.1) = '?' then
              p_dictLoop f (p_char_ignore (maybe_p_whitespace vcl.2.1))
                (entries ++ [(kcl.1, vcl.1)]) vcl.2.2
            else .ok (entries ++ [(kcl.1, vcl.1)], maybe_p_whitespace vcl.2.1, vcl.2.2)
termination_by structural f c entries live => f

end

/-- `dson_parse` of sniff.c: set `*out = NULL`, validate the NUL
terminator at `input[length]` (failure returns a bare `strdup` message
with no position), build the cursor over `input[0..length)` with the
requested safety flag, run `p_value` once, and deliver the root value
only on success. Result: `(the value stored in *out, the returned error,
the final allocation ledger)`. -/
def dson_parse (input : List Char) (length : Nat) (danger : Bool) :
    Option DsonValue × Option PError × Nat :=
  if ¬ input.getD length '\x00' = '\x00' then
    (Option.none, some (.plain "input was not NUL-terminated"), 0)
  else
    match p_value (3 * length + 3) { buf := input.take length, off := 0, danger := danger } 0 with
    | .error el => (Option.none, some el.1, el.2)
    | .ok vcl => (some vcl.1, Option.none, vcl.2.2)

end Cdson

namespace Cdson

/-! ## Cursor-advance bookkeeping

`Adv c c'` records what every scanning step of the C code preserves: the
buffer and the safety flag are untouched, and the offset only moves
forward (never past `s_end`, except that a cursor already out of range is
left where it is). This is the monotonicity invariant of claim C9. -/

def Adv (c c' : Context) : Prop :=
  c'.buf = c.buf ∧ c'.danger = c.danger ∧ c.off ≤ c'.off ∧
    (c'.off ≤ c.buf.length ∨ c'.off = c.off)

theorem Adv.refl (c : Context) : Adv c c :=
  ⟨rfl, rfl, Nat.le_refl _, Or.inr rfl⟩

theorem Adv.trans {a b c : Context} (h1 : Adv a b) (h2 : Adv b c) : Adv a c := by
  obtain ⟨b1, d1, o1, r1⟩ := h1
  obtain ⟨b2, d2, o2, r2⟩ := h2
  rw [b1] at b2 r2
  exact ⟨b2, d2.trans d1, o1.trans o2, by omega⟩

theorem p_chars_some {c : Context} {n : Nat} {s : List Char} {c' : Context}
    (h : p_chars c n = some (s, c')) :
    c'.buf = c.buf ∧ c'.danger = c.danger ∧ c'.off = c.off + n ∧
      c'.off ≤ c.buf.length ∧ s = (c.buf.drop c.off).take n := by
  unfold p_chars at h
  split at h
  · exact absurd h (by simp)
  · rename_i hle
    injection h with h
    injection h with h1 h2
    subst h2; subst h1
    exact ⟨rfl, rfl, rfl, by simp; omega, rfl⟩

theorem p_chars_adv {c : Context} {n : Nat} {s : List Char} {c' : Context}
    (h : p_chars c n = some (s, c')) : Adv c c' := by
  obtain ⟨b, d, o, l, _⟩ := p_chars_some h
  exact ⟨b, d, by omega, Or.inl l⟩

theorem p_char_ignore_adv (c : Context) : Adv c (p_char_ignore c) := by
  unfold p_char_ignore Adv
  split <;> simp <;> omega

theorem p_char_ignore_off {c : Context} (h : c.off < c.buf.length) :
    (p_char_ignore c).off = c.off + 1 := by
  unfold p_char_ignore
  split
  · omega
  · rfl

theorem peek_ne_nul {c : Context} (h : ¬ peek c = '\x00') : c.off < c.buf.length := by
  by_contra hlt
  apply h
  unfold peek
  rw [List.getD_eq_default]
  omega

theorem isOctal_ne_nul {ch : Char} (h : isOctal ch) : ¬ ch = '\x00' := by
  intro he
  subst he
  exact absurd h (by decide)

theorem wsLoop_adv : ∀ (f : Nat) (c : Context), Adv c (wsLoop f c)
  | 0, c => Adv.refl c
  | f + 1, c => by
    unfold wsLoop
    split
    · exact Adv.refl c
    · split
      · exact Adv.refl c
      · exact (p_char_ignore_adv c).trans (wsLoop_adv f (p_char_ignore c))

theorem maybe_p_whitespace_adv (c : Context) : Adv c (maybe_p_whitespace c) :=
  wsLoop_adv _ c

theorem octLoop_adv : ∀ (f : Nat) (n : ℚ) (c : Context), Adv c (octLoop f n c).2
  | 0, _, c => Adv.refl c
  | f + 1, n, c => by
    unfold octLoop
    split
    · exact (p_char_ignore_adv c).trans (octLoop_adv f _ (p_char_ignore c))
    · exact Adv.refl c

theorem p_octal_adv (c : Context) : Adv c (p_octal c).2 :=
  octLoop_adv _ 0 c

end Cdson

namespace Cdson

/-! ## Error shape and advance lemmas for the non-recursive parsers -/

theorem p_chars_some2 {c : Context} {n : Nat} {sc : List Char × Context}
    (h : p_chars c n = some sc) :
    sc.2.buf = c.buf ∧ sc.2.danger = c.danger ∧ sc.2.off = c.off + n ∧
      sc.2.off ≤ c.buf.length ∧ sc.1 = (c.buf.drop c.off).take n := by
  rcases sc with ⟨s, c'⟩
  exact p_chars_some h

theorem p_chars_adv2 {c : Context} {n : Nat} {sc : List Char × Context}
    (h : p_chars c n = some sc) : Adv c sc.2 := by
  rcases sc with ⟨s, c'⟩
  exact p_chars_adv h

theorem escLoop_adv : ∀ (k : Nat) (acc : ℚ) (c : Context), Adv c (escLoop k acc c).2
  | 0, _, c => Adv.refl c
  | k + 1, acc, c => by
    unfold escLoop
    exact (p_octal_adv c).trans (escLoop_adv k _ _)

theorem handle_escaped_core_err {acc : ℚ} {c1 : Context} {e : PError}
    (h : handle_escaped_core acc c1 = .error e) : e.positioned = true := by
  unfold handle_escaped_core at h
  split at h
  · injection h with h; subst h; rfl
  · exact absurd h (by simp)

theorem handle_escaped_core_ok {acc : ℚ} {c1 : Context} {bc : List Nat × Context}
    (h : handle_escaped_core acc c1 = .ok bc) : bc.2 = c1 := by
  unfold handle_escaped_core at h
  split at h
  · exact absurd h (by simp)
  · injection h with h
    rw [← h]

theorem handle_escaped_err {c : Context} {e : PError}
    (h : handle_escaped c = .error e) : e.positioned = true := by
  unfold handle_escaped at h
  exact handle_escaped_core_err h

theorem handle_escaped_ok {c : Context} {bc : List Nat × Context}
    (h : handle_escaped c = .ok bc) : Adv c bc.2 := by
  unfold handle_escaped at h
  rw [handle_escaped_core_ok h]
  exact escLoop_adv 6 0 c

theorem p_empty_err {c : Context} {e : PError}
    (h : p_empty c = .error e) : e.positioned = true := by
  unfold p_empty at h
  split at h
  · injection h with h; subst h; rfl
  · split at h
    · injection h with h; subst h; rfl
    · exact absurd h (by simp)

theorem p_empty_ok {c : Context} {uc : Unit × Context}
    (h : p_empty c = .ok uc) : Adv c uc.2 := by
  unfold p_empty at h
  split at h
  · exact absurd h (by simp)
  · rename_i sc heq
    split at h
    · exact absurd h (by simp)
    · injection h with h
      rw [← h]
      exact p_chars_adv2 heq

theorem p_bool_err {c : Context} {e : PError}
    (h : p_bool c = .error e) : e.positioned = true := by
  unfold p_bool at h
  split at h
  · injection h with h; subst h; rfl
  · split at h
    · split at h
      · injection h with h; subst h; rfl
      · split at h
        · injection h with h; subst h; rfl
        · exact absurd h (by simp)
    · split at h
      · exact absurd h (by simp)
      · injection h with h; subst h; rfl

theorem p_bool_ok {c : Context} {bc : Bool × Context}
    (h : p_bool c = .ok bc) : Adv c bc.2 := by
  unfold p_bool at h
  split at h
  · exact absurd h (by simp)
  · rename_i sc heq
    split at h
    · split at h
      · exact absurd h (by simp)
      · rename_i sc2 heq2
        split at h
        · exact absurd h (by simp)
        · injection h with h
          rw [← h]
          exact (p_chars_adv2 heq).trans (p_chars_adv2 heq2)
    · split at h
      · injection h with h
        rw [← h]
        exact p_chars_adv2 heq
      · exact absurd h (by simp)

theorem scanLoop_ok : ∀ (f : Nat) (c : Context) (ec : Nat × Context),
    scanLoop f c = .ok ec → Adv c ec.2 ∧ ec.1 + 1 = ec.2.off ∧ c.off ≤ ec.1 := by
  intro f
  induction f with
  | zero =>
    intro c ec h
    exact absurd h (by simp [scanLoop])
  | succ f ih =>
    intro c ec h
    rw [scanLoop] at h
    split at h
    · exact absurd h (by simp)
    · rename_i sc heq
      obtain ⟨hb, hd, ho, hl, hs⟩ := p_chars_some2 heq
      split at h
      · injection h with h
        rw [← h]
        exact ⟨p_chars_adv2 heq, by simp; omega, by simp; omega⟩
      · split at h
        · split at h
          · exact absurd h (by simp)
          · rename_i sc2 heq2
            obtain ⟨hb2, hd2, ho2, hl2, hs2⟩ := p_chars_some2 heq2
            split at h
            · split at h
              · exact absurd h (by simp)
              · rename_i sc3 heq3
                obtain ⟨hb3, hd3, ho3, hl3, hs3⟩ := p_chars_some2 heq3
                obtain ⟨ha, he, hle⟩ := ih sc3.2 ec h
                refine ⟨((p_chars_adv2 heq).trans ((p_chars_adv2 heq2).trans
                  ((p_chars_adv2 heq3).trans ha))), he, by omega⟩
            · obtain ⟨ha, he, hle⟩ := ih sc2.2 ec h
              exact ⟨(p_chars_adv2 heq).trans ((p_chars_adv2 heq2).trans ha), he, by omega⟩
        · obtain ⟨ha, he, hle⟩ := ih sc.2 ec h
          exact ⟨(p_chars_adv2 heq).trans ha, he, by omega⟩

theorem scanLoop_err : ∀ (f : Nat) (c : Context) (e : PError),
    c.buf.length - c.off < f → scanLoop f c = .error e → e.positioned = true := by
  intro f
  induction f with
  | zero =>
    intro c e hf h
    omega
  | succ f ih =>
    intro c e hf h
    rw [scanLoop] at h
    split at h
    · injection h with h; subst h; rfl
    · rename_i sc heq
      obtain ⟨hb, hd, ho, hl, hs⟩ := p_chars_some2 heq
      split at h
      · exact absurd h (by simp)
      · split at h
        · split at h
          · injection h with h; subst h; rfl
          · rename_i sc2 heq2
            obtain ⟨hb2, hd2, ho2, hl2, hs2⟩ := p_chars_some2 heq2
            split at h
            · split at h
              · injection h with h; subst h; rfl
              · rename_i sc3 heq3
                obtain ⟨hb3, hd3, ho3, hl3, hs3⟩ := p_chars_some2 heq3
                exact ih sc3.2 e (by rw [hb3, hb2, hb]; omega) h
            · exact ih sc2.2 e (by rw [hb2, hb]; omega) h
        · exact ih sc.2 e (by rw [hb]; omega) h

end Cdson

namespace Cdson

theorem decodeLoop_ok : ∀ (f : Nat) (c : Context) (p endIdx : Nat) (out : List Char)
    (oc : List Char × Context),
    decodeLoop f c p endIdx out = .ok oc → Adv c oc.2 := by
  intro f
  induction f with
  | zero =>
    intro c p endIdx out oc h
    exact Except.noConfusion h
  | succ f ih =>
    intro c p endIdx out oc h
    rw [decodeLoop.eq_def] at h
    dsimp only [] at h
    split at h
    · split at h
      · exact ih _ _ _ _ _ h
      · split at h
        · exact ih _ _ _ _ _ h
        · split at h
          · exact ih _ _ _ _ _ h
          · split at h
            · exact ih _ _ _ _ _ h
            · split at h
              · exact ih _ _ _ _ _ h
              · split at h
                · exact ih _ _ _ _ _ h
                · split at h
                  · exact ih _ _ _ _ _ h
                  · split at h
                    · split at h
                      · exact absurd h (by simp)
                      · rename_i bc heq
                        exact (handle_escaped_ok heq).trans (ih _ _ _ _ _ h)
                    · exact absurd h (by simp)
    · injection h with h
      rw [← h]
      exact Adv.refl c

theorem decodeLoop_err : ∀ (f : Nat) (c : Context) (p endIdx : Nat) (out : List Char)
    (e : PError), endIdx - p < f → decodeLoop f c p endIdx out = .error e →
    e.positioned = true := by
  intro f
  induction f with
  | zero =>
    intro c p endIdx out e hf h
    omega
  | succ f ih =>
    intro c p endIdx out e hf h
    rw [decodeLoop.eq_def] at h
    dsimp only [] at h
    split at h
    · rename_i hlt
      split at h
      · exact ih _ _ _ _ _ (by omega) h
      · split at h
        · exact ih _ _ _ _ _ (by omega) h
        · split at h
          · exact ih _ _ _ _ _ (by omega) h
          · split at h
            · exact ih _ _ _ _ _ (by omega) h
            · split at h
              · exact ih _ _ _ _ _ (by omega) h
              · split at h
                · exact ih _ _ _ _ _ (by omega) h
                · split at h
                  · exact ih _ _ _ _ _ (by omega) h
                  · split at h
                    · split at h
                      · rename_i heq
                        cases h
                        exact handle_escaped_err heq
                      · exact ih _ _ _ _ _ (by omega) h
                    · injection h with h; subst h; rfl
    · exact absurd h (by simp)

theorem p_string_err {c : Context} {live : Nat} {e : PError} {l : Nat}
    (h : p_string c live = .error (e, l)) : e.positioned = true ∧ l = live := by
  unfold p_string at h
  split at h
  · injection h with h
    injection h with h1 h2
    subst h1; subst h2
    exact ⟨rfl, rfl⟩
  · rename_i sc heq
    obtain ⟨hb, hd, ho, hl, hs⟩ := p_chars_some2 heq
    split at h
    · injection h with h
      injection h with h1 h2
      subst h1; subst h2
      exact ⟨rfl, rfl⟩
    · split at h
      · rename_i e1 heq1
        injection h with h
        injection h with h1 h2
        subst h1; subst h2
        refine ⟨scanLoop_err _ sc.2 _ ?_ heq1, rfl⟩
        rw [hb]
        omega
      · rename_i ec heq1
        have hscan := scanLoop_ok _ sc.2 ec heq1
        split at h
        · rename_i e1 heq2
          injection h with h
          injection h with h1 h2
          subst h1; subst h2
          refine ⟨decodeLoop_err _ ec.2 _ _ _ _ ?_ heq2, by omega⟩
          omega
        · exact absurd h (by simp)

theorem p_string_ok {c : Context} {live : Nat} {scl : List Char × Context × Nat}
    (h : p_string c live = .ok scl) : Adv c scl.2.1 ∧ scl.2.2 = live + 1 := by
  unfold p_string at h
  split at h
  · exact absurd h (by simp)
  · rename_i sc heq
    split at h
    · exact absurd h (by simp)
    · split at h
      · exact absurd h (by simp)
      · rename_i ec heq1
        have hscan := scanLoop_ok _ sc.2 ec heq1
        split at h
        · exact absurd h (by simp)
        · rename_i oc heq2
          injection h with h
          rw [← h]
          exact ⟨(p_chars_adv2 heq).trans (hscan.1.trans (decodeLoop_ok _ ec.2 _ _ _ _ heq2)),
            rfl⟩

end Cdson

namespace Cdson

/-! ## Advance and error lemmas for `p_double` -/

theorem fracLoop_adv : ∀ (f : Nat) (n divisor : ℚ) (c : Context),
    Adv c (fracLoop f n divisor c).2.2
  | 0, _, _, c => Adv.refl c
  | f + 1, n, divisor, c => by
    unfold fracLoop
    split
    · exact (p_char_ignore_adv c).trans (fracLoop_adv f _ _ (p_char_ignore c))
    · exact Adv.refl c

theorem pd_c1_adv (c0 : Context) : Adv c0 (pd_c1 c0) := by
  unfold pd_c1
  split
  · exact p_char_ignore_adv c0
  · exact Adv.refl c0

theorem pd_c2_adv (c0 : Context) : Adv c0 (pd_c2 c0) :=
  (pd_c1_adv c0).trans (maybe_p_whitespace_adv _)

theorem pd_int_adv (c0 : Context) : Adv c0 (pd_int c0).2 := by
  unfold pd_int
  split
  · exact (pd_c2_adv c0).trans (p_char_ignore_adv _)
  · exact (pd_c2_adv c0).trans (p_octal_adv _)

theorem pd_c3_adv (c0 : Context) : Adv c0 (pd_c3 c0) :=
  (pd_int_adv c0).trans (maybe_p_whitespace_adv _)

theorem p_double_frac_err {n : ℚ} {c3 : Context} {e : PError}
    (h : p_double_frac n c3 = .error e) : e.positioned = true := by
  unfold p_double_frac at h
  split at h
  · split at h
    · injection h with h; subst h; rfl
    · exact absurd h (by simp)
  · exact absurd h (by simp)

theorem p_double_frac_ok {n : ℚ} {c3 : Context} {nc : ℚ × Context}
    (h : p_double_frac n c3 = .ok nc) : Adv c3 nc.2 := by
  unfold p_double_frac at h
  split at h
  · split at h
    · exact absurd h (by simp)
    · injection h with h
      rw [← h]
      exact (p_char_ignore_adv c3).trans
        ((fracLoop_adv _ n 8 _).trans (maybe_p_whitespace_adv _))
  · injection h with h
    rw [← h]
    exact Adv.refl c3

theorem pde_c7_adv (c6 : Context) : Adv c6 (pde_c7 c6) := by
  unfold pde_c7
  split
  · exact p_char_ignore_adv c6
  · exact Adv.refl c6

theorem pde_c8_adv (c6 : Context) : Adv c6 (pde_c8 c6) :=
  (pde_c7_adv c6).trans (maybe_p_whitespace_adv _)

theorem p_double_exp_err {isneg : Bool} {n : ℚ} {c5 : Context} {e : PError}
    (h : p_double_exp isneg n c5 = .error e) : e.positioned = true := by
  unfold p_double_exp at h
  split at h
  · split at h
    · injection h with h; subst h; rfl
    · split at h
      · injection h with h; subst h; rfl
      · split at h
        · injection h with h; subst h; rfl
        · exact absurd h (by simp)
  · exact absurd h (by simp)

theorem p_double_exp_ok {isneg : Bool} {n : ℚ} {c5 : Context} {nc : ℚ × Context}
    (h : p_double_exp isneg n c5 = .ok nc) : Adv c5 nc.2 := by
  unfold p_double_exp at h
  split at h
  · split at h
    · exact absurd h (by simp)
    · rename_i sc6 heq
      split at h
      · exact absurd h (by simp)
      · split at h
        · exact absurd h (by simp)
        · injection h with h
          rw [← h]
          exact (p_chars_adv2 heq).trans ((pde_c8_adv sc6.2).trans (p_octal_adv _))
  · injection h with h
    rw [← h]
    exact Adv.refl c5

theorem p_double_err {c0 : Context} {e : PError}
    (h : p_double c0 = .error e) : e.positioned = true := by
  unfold p_double at h
  split at h
  · rename_i e1 heq
    cases h
    exact p_double_frac_err heq
  · exact p_double_exp_err h

theorem p_double_ok {c0 : Context} {nc : ℚ × Context}
    (h : p_double c0 = .ok nc) : Adv c0 nc.2 := by
  unfold p_double at h
  split at h
  · exact absurd h (by simp)
  · rename_i nc5 heq
    exact (pd_c3_adv c0).trans ((p_double_frac_ok heq).trans (p_double_exp_ok h))

end Cdson

namespace Cdson

/-! ## Character-class facts and progress lemmas -/

theorem isOctal_not_ws {ch : Char} (h : isOctal ch) : ¬ isWS ch = true := by
  intro hws
  simp only [isWS, decide_eq_true_eq] at hws
  rcases hws with rfl | rfl | rfl | rfl | rfl | rfl <;> exact absurd h (by decide)

theorem isOctal_ne_minus {ch : Char} (h : isOctal ch) : ¬ ch = '-' := by
  intro he
  subst he
  exact absurd h (by decide)

theorem maybe_p_whitespace_noop {c : Context}
    (h : peek c = '\x00' ∨ ¬ isWS (peek c) = true) : maybe_p_whitespace c = c := by
  unfold maybe_p_whitespace
  cases hf : c.buf.length + 1 - c.off with
  | zero => rfl
  | succ f =>
    rw [wsLoop]
    rcases h with h | h
    · rw [if_pos h]
    · by_cases hn : peek c = '\x00'
      · rw [if_pos hn]
      · rw [if_neg hn, if_pos h]

theorem p_octal_progress {c : Context} (h : isOctal (peek c)) :
    c.off + 1 ≤ (p_octal c).2.off := by
  have hlt : c.off < c.buf.length := peek_ne_nul (isOctal_ne_nul h)
  unfold p_octal
  have hf : c.buf.length + 1 - c.off = (c.buf.length - c.off) + 1 := by omega
  rw [hf, octLoop, if_pos h]
  obtain ⟨_, _, hmono, _⟩ := octLoop_adv (c.buf.length - c.off) (0 * 8 + digitQ (peek c))
    (p_char_ignore c)
  have hoff := p_char_ignore_off hlt
  omega

theorem pd_int_progress {c0 : Context} (h : peek c0 = '-' ∨ isOctal (peek c0)) :
    c0.off + 1 ≤ (pd_int c0).2.off := by
  rcases h with h | h
  · have hlt : c0.off < c0.buf.length := peek_ne_nul (by rw [h]; decide)
    have h1 : (pd_c1 c0).off = c0.off + 1 := by
      unfold pd_c1
      rw [if_pos h]
      exact p_char_ignore_off hlt
    have hm2 : (pd_c1 c0).off ≤ (pd_c2 c0).off :=
      (maybe_p_whitespace_adv (pd_c1 c0)).2.2.1
    have hm3 : (pd_c2 c0).off ≤ (pd_int c0).2.off := by
      unfold pd_int
      split
      · exact (p_char_ignore_adv _).2.2.1
      · exact (p_octal_adv _).2.2.1
    omega
  · have h1 : pd_c1 c0 = c0 := by
      unfold pd_c1
      rw [if_neg]
      intro he
      exact absurd h (by rw [he]; decide)
    have h2 : pd_c2 c0 = c0 := by
      unfold pd_c2
      rw [h1]
      exact maybe_p_whitespace_noop (Or.inr (isOctal_not_ws h))
    have hlt : c0.off < c0.buf.length := peek_ne_nul (isOctal_ne_nul h)
    unfold pd_int
    rw [h2]
    split
    · rw [p_char_ignore_off hlt]
    · exact p_octal_progress h

theorem p_double_progress {c0 : Context} {nc : ℚ × Context}
    (hd : peek c0 = '-' ∨ isOctal (peek c0)) (h : p_double c0 = .ok nc) :
    c0.off + 1 ≤ nc.2.off := by
  have hint := pd_int_progress hd
  unfold p_double at h
  split at h
  · exact absurd h (by simp)
  · rename_i nc5 heq
    obtain ⟨_, _, hm1, _⟩ := maybe_p_whitespace_adv (pd_int c0).2
    obtain ⟨_, _, hm2, _⟩ := p_double_frac_ok heq
    obtain ⟨_, _, hm3, _⟩ := p_double_exp_ok h
    unfold pd_c3 at hm2
    omega

theorem p_string_ok2 {c : Context} {live : Nat} {scl : List Char × Context × Nat}
    (h : p_string c live = .ok scl) :
    Adv c scl.2.1 ∧ scl.2.2 = live + 1 ∧ c.off + 2 ≤ scl.2.1.off := by
  refine ⟨(p_string_ok h).1, (p_string_ok h).2, ?_⟩
  unfold p_string at h
  split at h
  · exact absurd h (by simp)
  · rename_i sc heq
    obtain ⟨hb, hd, ho, hl, hs⟩ := p_chars_some2 heq
    split at h
    · exact absurd h (by simp)
    · split at h
      · exact absurd h (by simp)
      · rename_i ec heq1
        obtain ⟨hadv, hoff, hle⟩ := scanLoop_ok _ sc.2 ec heq1
        split at h
        · exact absurd h (by simp)
        · rename_i oc heq2
          obtain ⟨_, _, hm2, _⟩ := decodeLoop_ok _ ec.2 _ _ _ _ heq2
          injection h with h
          rw [← h]
          dsimp only []
          omega

theorem p_bool_ok2 {c : Context} {bc : Bool × Context}
    (h : p_bool c = .ok bc) : Adv c bc.2 ∧ c.off + 2 ≤ bc.2.off := by
  refine ⟨p_bool_ok h, ?_⟩
  unfold p_bool at h
  split at h
  · exact absurd h (by simp)
  · rename_i sc heq
    obtain ⟨hb, hd, ho, hl, hs⟩ := p_chars_some2 heq
    split at h
    · split at h
      · exact absurd h (by simp)
      · rename_i sc2 heq2
        obtain ⟨hb2, hd2, ho2, hl2, hs2⟩ := p_chars_some2 heq2
        split at h
        · exact absurd h (by simp)
        · injection h with h
          rw [← h]
          dsimp only []
          omega
    · split at h
      · injection h with h
        rw [← h]
        dsimp only []
        omega
      · exact absurd h (by simp)

theorem p_empty_ok2 {c : Context} {uc : Unit × Context}
    (h : p_empty c = .ok uc) : Adv c uc.2 ∧ c.off + 5 ≤ uc.2.off := by
  refine ⟨p_empty_ok h, ?_⟩
  unfold p_empty at h
  split at h
  · exact absurd h (by simp)
  · rename_i sc heq
    obtain ⟨hb, hd, ho, hl, hs⟩ := p_chars_some2 heq
    split at h
    · exact absurd h (by simp)
    · injection h with h
      rw [← h]
      dsimp only []
      omega

end Cdson

namespace Cdson

/-! ## Monotone advance for the mutually recursive parsers (claim C9) -/

theorem parsers_mono : ∀ f : Nat,
    (∀ c live vcl, p_value f c live = .ok vcl →
      Adv c vcl.2.1 ∧ c.off + 1 ≤ vcl.2.1.off) ∧
    (∀ c live acl, p_array f c live = .ok acl →
      Adv c acl.2.1 ∧ c.off + 2 ≤ acl.2.1.off) ∧
    (∀ c acc live acl, p_arrayLoop f c acc live = .ok acl →
      Adv c acl.2.1 ∧ c.off + 1 ≤ acl.2.1.off) ∧
    (∀ c live dcl, p_dict f c live = .ok dcl →
      Adv c dcl.2.1 ∧ c.off + 4 ≤ dcl.2.1.off) ∧
    (∀ c entries live ecl, p_dictLoop f c entries live = .ok ecl →
      Adv c ecl.2.1 ∧ c.off + 2 ≤ ecl.2.1.off) := by
  intro f
  induction f with
  | zero =>
    refine ⟨?_, ?_, ?_, ?_, ?_⟩
    · intro c live vcl h
      exact Except.noConfusion h
    · intro c live acl h
      exact Except.noConfusion h
    · intro c acc live acl h
      exact Except.noConfusion h
    · intro c live dcl h
      exact Except.noConfusion h
    · intro c entries live ecl h
      exact Except.noConfusion h
  | succ f ih =>
    obtain ⟨ihV, ihA, ihL, ihD, ihE⟩ := ih
    refine ⟨?_, ?_, ?_, ?_, ?_⟩
    -- p_value
    · intro c live vcl h
      rw [p_value.eq_def] at h
      dsimp only [] at h
      split at h
      · -- string
        split at h
        · exact absurd h (by simp)
        · rename_i scl heq
          cases h
          obtain ⟨hadv, _, hoff⟩ := p_string_ok2 heq
          refine ⟨hadv, ?_⟩
          dsimp only []
          omega
      · split at h
        · -- number
          rename_i hd
          split at h
          · exact absurd h (by simp)
          · rename_i nc heq
            cases h
            refine ⟨p_double_ok heq, ?_⟩
            dsimp only []
            exact p_double_progress hd heq
        · split at h
          · -- bool
            split at h
            · exact absurd h (by simp)
            · rename_i bc heq
              cases h
              obtain ⟨hadv, hoff⟩ := p_bool_ok2 heq
              refine ⟨hadv, ?_⟩
              dsimp only []
              omega
          · split at h
            · -- empty
              split at h
              · exact absurd h (by simp)
              · rename_i uc heq
                cases h
                obtain ⟨hadv, hoff⟩ := p_empty_ok2 heq
                refine ⟨hadv, ?_⟩
                dsimp only []
                omega
            · split at h
              · -- 's'
                split at h
                · -- array
                  split at h
                  · exact absurd h (by simp)
                  · rename_i acl heq
                    cases h
                    obtain ⟨hadv, hoff⟩ := ihA c (live + 1) acl heq
                    refine ⟨hadv, ?_⟩
                    dsimp only []
                    omega
                · split at h
                  · -- dict
                    split at h
                    · exact absurd h (by simp)
                    · rename_i dcl heq
                      cases h
                      obtain ⟨hadv, hoff⟩ := ihD c (live + 1) dcl heq
                      refine ⟨hadv, ?_⟩
                      dsimp only []
                      omega
                  · exact absurd h (by simp)
              · exact absurd h (by simp)
    -- p_array
    · intro c live acl h
      rw [p_array.eq_def] at h
      dsimp only [] at h
      split at h
      · exact absurd h (by simp)
      · rename_i sc heq
        obtain ⟨hb, hd, ho, hl, hs⟩ := p_chars_some2 heq
        split at h
        · exact absurd h (by simp)
        · split at h
          · exact absurd h (by simp)
          · rename_i acl0 heq0
            have hadv0 : Adv sc.2 acl0.2.1 ∧ sc.2.off ≤ acl0.2.1.off := by
              split at heq0
              · obtain ⟨ha, hoo⟩ := ihL _ _ _ _ heq0
                exact ⟨(maybe_p_whitespace_adv sc.2).trans ha,
                  le_trans (maybe_p_whitespace_adv sc.2).2.2.1 (by omega)⟩
              · cases heq0
                exact ⟨maybe_p_whitespace_adv sc.2, (maybe_p_whitespace_adv sc.2).2.2.1⟩
            split at h
            · exact absurd h (by simp)
            · rename_i sc4 heq4
              obtain ⟨hb4, hd4, ho4, hl4, hs4⟩ := p_chars_some2 heq4
              split at h
              · exact absurd h (by simp)
              · cases h
                refine ⟨(p_chars_adv2 heq).trans (hadv0.1.trans (p_chars_adv2 heq4)), ?_⟩
                dsimp only []
                omega
    -- p_arrayLoop
    · intro c acc live acl h
      rw [p_arrayLoop.eq_def] at h
      dsimp only [] at h
      split at h
      · exact absurd h (by simp)
      · rename_i vcl heq
        obtain ⟨haV, hoV⟩ := ihV c live vcl heq
        split at h
        · cases h
          refine ⟨haV.trans (maybe_p_whitespace_adv vcl.2.1), ?_⟩
          dsimp only []
          have := (maybe_p_whitespace_adv vcl.2.1).2.2.1
          omega
        · split at h
          · exact absurd h (by simp)
          · rename_i sc3 heq3
            obtain ⟨hb3, hd3, ho3, hl3, hs3⟩ := p_chars_some2 heq3
            have hwm := (maybe_p_whitespace_adv vcl.2.1).2.2.1
            split at h
            · obtain ⟨ha2, ho2⟩ := ihL _ _ _ _ h
              refine ⟨(haV.trans ((maybe_p_whitespace_adv vcl.2.1).trans
                ((p_chars_adv2 heq3).trans ((maybe_p_whitespace_adv sc3.2).trans ha2)))), ?_⟩
              have := (maybe_p_whitespace_adv sc3.2).2.2.1
              omega
            · split at h
              · exact absurd h (by simp)
              · split at h
                · exact absurd h (by simp)
                · rename_i sc4 heq4
                  obtain ⟨hb4, hd4, ho4, hl4, hs4⟩ := p_chars_some2 heq4
                  split at h
                  · exact absurd h (by simp)
                  · obtain ⟨ha2, ho2⟩ := ihL _ _ _ _ h
                    refine ⟨(haV.trans ((maybe_p_whitespace_adv vcl.2.1).trans
                      ((p_chars_adv2 heq3).trans ((p_chars_adv2 heq4).trans
                        ((maybe_p_whitespace_adv sc4.2).trans ha2))))), ?_⟩
                    have := (maybe_p_whitespace_adv sc4.2).2.2.1
                    omega
    -- p_dict
    · intro c live dcl h
      rw [p_dict.eq_def] at h
      dsimp only [] at h
      split at h
      · exact absurd h (by simp)
      · rename_i sc heq
        obtain ⟨hb, hd, ho, hl, hs⟩ := p_chars_some2 heq
        split at h
        · exact absurd h (by simp)
        · split at h
          · exact absurd h (by simp)
          · rename_i ecl heq0
            obtain ⟨haE, hoE⟩ := ihE _ _ _ _ heq0
            split at h
            · exact absurd h (by simp)
            · rename_i sc3 heq3
              obtain ⟨hb3, hd3, ho3, hl3, hs3⟩ := p_chars_some2 heq3
              split at h
              · exact absurd h (by simp)
              · cases h
                refine ⟨((p_chars_adv2 heq).trans (haE.trans (p_chars_adv2 heq3))), ?_⟩
                dsimp only []
                omega
    -- p_dictLoop
    · intro c entries live ecl h
      rw [p_dictLoop.eq_def] at h
      dsimp only [] at h
      split at h
      · exact absurd h (by simp)
      · rename_i kcl heq
        obtain ⟨haK, _, hoK⟩ := p_string_ok2 heq
        have hw1 := (maybe_p_whitespace_adv c).2.2.1
        have hw2 := (maybe_p_whitespace_adv kcl.2.1).2.2.1
        split at h
        · exact absurd h (by simp)
        · rename_i sc4 heq4
          obtain ⟨hb4, hd4, ho4, hl4, hs4⟩ := p_chars_some2 heq4
          split at h
          · exact absurd h (by simp)
          · split at h
            · exact absurd h (by simp)
            · rename_i vcl heqV
              obtain ⟨haV, hoV⟩ := ihV _ _ _ heqV
              have hw3 := (maybe_p_whitespace_adv sc4.2).2.2.1
              have hw4 := (maybe_p_whitespace_adv vcl.2.1).2.2.1
              have hbase : Adv c vcl.2.1 :=
                ((maybe_p_whitespace_adv c).trans (haK.trans
                  ((maybe_p_whitespace_adv kcl.2.1).trans ((p_chars_adv2 heq4).trans
                    ((maybe_p_whitespace_adv sc4.2).trans haV)))))
              split at h
              · obtain ⟨ha2, ho2⟩ := ihE _ _ _ _ h
                have := (p_char_ignore_adv (maybe_p_whitespace vcl.2.1)).2.2.1
                refine ⟨(hbase.trans ((maybe_p_whitespace_adv vcl.2.1).trans
                  ((p_char_ignore_adv _).trans ha2))), ?_⟩
                omega
              · cases h
                refine ⟨hbase.trans (maybe_p_whitespace_adv vcl.2.1), ?_⟩
                dsimp only []
                omega

end Cdson

namespace Cdson

/-! ## Adequacy: with the fuel margins `dson_parse` supplies, every
parser failure is a position-annotated `ERROR`-macro result (never the
out-of-fuel artifact). -/

theorem parsers_err : ∀ f : Nat,
    (∀ c live el, 3 * (c.buf.length - c.off) + 3 ≤ f → c.off ≤ c.buf.length →
      p_value f c live = .error el → el.1.positioned = true) ∧
    (∀ c live el, 3 * (c.buf.length - c.off) + 2 ≤ f → c.off ≤ c.buf.length →
      p_array f c live = .error el → el.1.positioned = true) ∧
    (∀ c acc live el, 3 * (c.buf.length - c.off) + 5 ≤ f → c.off ≤ c.buf.length →
      p_arrayLoop f c acc live = .error el → el.1.positioned = true) ∧
    (∀ c live el, 3 * (c.buf.length - c.off) + 2 ≤ f → c.off ≤ c.buf.length →
      p_dict f c live = .error el → el.1.positioned = true) ∧
    (∀ c entries live el, 3 * (c.buf.length - c.off) + 5 ≤ f → c.off ≤ c.buf.length →
      p_dictLoop f c entries live = .error el → el.1.positioned = true) := by
  intro f
  induction f with
  | zero =>
    refine ⟨?_, ?_, ?_, ?_, ?_⟩
    · intro c live el hf hle h
      omega
    · intro c live el hf hle h
      omega
    · intro c acc live el hf hle h
      omega
    · intro c live el hf hle h
      omega
    · intro c entries live el hf hle h
      omega
  | succ f ih =>
    obtain ⟨ihV, ihA, ihL, ihD, ihE⟩ := ih
    refine ⟨?_, ?_, ?_, ?_, ?_⟩
    -- p_value
    · intro c live el hf hle h
      rw [p_value.eq_def] at h
      dsimp only [] at h
      split at h
      · split at h
        · rename_i el0 heq
          cases h
          exact (p_string_err heq).1
        · exact absurd h (by simp)
      · split at h
        · split at h
          · rename_i e0 heq
            cases h
            exact p_double_err heq
          · exact absurd h (by simp)
        · split at h
          · split at h
            · rename_i e0 heq
              cases h
              exact p_bool_err heq
            · exact absurd h (by simp)
          · split at h
            · split at h
              · rename_i e0 heq
                cases h
                exact p_empty_err heq
              · exact absurd h (by simp)
            · split at h
              · split at h
                · split at h
                  · rename_i el0 heq
                    cases h
                    exact ihA c (live + 1) el0 (by omega) hle heq
                  · exact absurd h (by simp)
                · split at h
                  · split at h
                    · rename_i el0 heq
                      cases h
                      exact ihD c (live + 1) el0 (by omega) hle heq
                    · exact absurd h (by simp)
                  · cases h
                    rfl
              · cases h
                rfl
    -- p_array
    · intro c live el hf hle h
      rw [p_array.eq_def] at h
      dsimp only [] at h
      split at h
      · cases h
        rfl
      · rename_i sc heq
        obtain ⟨hb, hd, ho, hl, hs⟩ := p_chars_some2 heq
        have hbl := congrArg List.length hb
        split at h
        · cases h
          rfl
        · split at h
          · rename_i el0 heq0
            cases h
            obtain ⟨hwb, hwd, hwo, hwr⟩ := maybe_p_whitespace_adv sc.2
            have hwbl := congrArg List.length hwb
            split at heq0
            · exact ihL _ _ _ el (by omega) (by omega) heq0
            · exact absurd heq0 (by simp)
          · rename_i acl0 heq0
            split at h
            · cases h
              rfl
            · rename_i sc4 heq4
              split at h
              · cases h
                rfl
              · exact absurd h (by simp)
    -- p_arrayLoop
    · intro c acc live el hf hle h
      rw [p_arrayLoop.eq_def] at h
      dsimp only [] at h
      split at h
      · rename_i el0 heq
        cases h
        exact ihV c _ el0 (by omega) hle heq
      · rename_i vcl heq
        obtain ⟨⟨hvb, hvd, hvo, hvr⟩, hvp⟩ := (parsers_mono f).1 _ _ _ heq
        have hvbl := congrArg List.length hvb
        obtain ⟨h1b, h1d, h1o, h1r⟩ := maybe_p_whitespace_adv vcl.2.1
        have h1bl := congrArg List.length h1b
        split at h
        · exact absurd h (by simp)
        · split at h
          · cases h
            rfl
          · rename_i sc3 heq3
            obtain ⟨hb3, hd3, ho3, hl3, hs3⟩ := p_chars_some2 heq3
            have hb3l := congrArg List.length hb3
            split at h
            · obtain ⟨h2b, h2d, h2o, h2r⟩ := maybe_p_whitespace_adv sc3.2
              have h2bl := congrArg List.length h2b
              exact ihL _ _ _ el (by omega) (by omega) h
            · split at h
              · cases h
                rfl
              · split at h
                · cases h
                  rfl
                · rename_i sc4 heq4
                  obtain ⟨hb4, hd4, ho4, hl4, hs4⟩ := p_chars_some2 heq4
                  have hb4l := congrArg List.length hb4
                  split at h
                  · cases h
                    rfl
                  · obtain ⟨h2b, h2d, h2o, h2r⟩ := maybe_p_whitespace_adv sc4.2
                    have h2bl := congrArg List.length h2b
                    exact ihL _ _ _ el (by omega) (by omega) h
    -- p_dict
    · intro c live el hf hle h
      rw [p_dict.eq_def] at h
      dsimp only [] at h
      split at h
      · cases h
        rfl
      · rename_i sc heq
        obtain ⟨hb, hd, ho, hl, hs⟩ := p_chars_some2 heq
        have hbl := congrArg List.length hb
        split at h
        · cases h
          rfl
        · split at h
          · rename_i el0 heq0
            cases h
            exact ihE _ _ _ el (by omega) (by omega) heq0
          · rename_i ecl heq0
            split at h
            · cases h
              rfl
            · rename_i sc3 heq3
              split at h
              · cases h
                rfl
              · exact absurd h (by simp)
    -- p_dictLoop
    · intro c entries live el hf hle h
      rw [p_dictLoop.eq_def] at h
      dsimp only [] at h
      split at h
      · rename_i el0 heq
        cases h
        exact (p_string_err heq).1
      · rename_i kcl heq
        obtain ⟨⟨hkb, hkd, hko, hkr⟩, _, hkp⟩ := p_string_ok2 heq
        have hkbl := congrArg List.length hkb
        obtain ⟨h1b, h1d, h1o, h1r⟩ := maybe_p_whitespace_adv c
        have h1bl := congrArg List.length h1b
        obtain ⟨h2b, h2d, h2o, h2r⟩ := maybe_p_whitespace_adv kcl.2.1
        have h2bl := congrArg List.length h2b
        split at h
        · cases h
          rfl
        · rename_i sc4 heq4
          obtain ⟨hb4, hd4, ho4, hl4, hs4⟩ := p_chars_some2 heq4
          have hb4l := congrArg List.length hb4
          obtain ⟨h3b, h3d, h3o, h3r⟩ := maybe_p_whitespace_adv sc4.2
          have h3bl := congrArg List.length h3b
          split at h
          · cases h
            rfl
          · split at h
            · rename_i el0 heqV
              cases h
              exact ihV _ _ el0 (by omega) (by omega) heqV
            · rename_i vcl heqV
              obtain ⟨⟨hvb, hvd, hvo, hvr⟩, hvp⟩ := (parsers_mono f).1 _ _ _ heqV
              have hvbl := congrArg List.length hvb
              obtain ⟨h4b, h4d, h4o, h4r⟩ := maybe_p_whitespace_adv vcl.2.1
              have h4bl := congrArg List.length h4b
              obtain ⟨hpb, hpd, hpo, hpr⟩ :=
                p_char_ignore_adv (maybe_p_whitespace vcl.2.1)
              have hpbl := congrArg List.length hpb
              split at h
              · exact ihE _ _ _ el (by omega) (by omega) h
              · exact absurd h (by simp)

end Cdson

namespace Cdson

/-! ## Refinement of `p_double` to the spec-side number formula (claim C1) -/

/-- `octLoop` computes the left fold of `n * 8 + d` over the octal run. -/
theorem octLoop_run : ∀ f (n : ℚ) c,
    octLoop f n c =
      ((octalRunF f c).1.foldl (fun m d => m * 8 + digitQ d) n, (octalRunF f c).2) := by
  intro f
  induction f with
  | zero =>
    intro n c
    rfl
  | succ f ih =>
    intro n c
    rw [octLoop, octalRunF]
    by_cases hoc : isOctal (peek c) = true
    · rw [if_pos hoc, if_pos hoc, ih]
      rfl
    · rw [if_neg hoc, if_neg hoc]
      rfl

/-- Casting the natural base-8 fold to `ℚ` gives the rational fold. -/
theorem octValueN_cast : ∀ (ds : List Char) (a : ℕ),
    ((ds.foldl (fun n d => n * 8 + (d.toNat - '0'.toNat)) a : ℕ) : ℚ) =
      ds.foldl (fun m d => m * 8 + digitQ d) (a : ℚ) := by
  intro ds
  induction ds with
  | nil =>
    intro a
    rfl
  | cons d ds ih =>
    intro a
    simp only [List.foldl_cons]
    rw [ih]
    congr 1
    rw [Nat.cast_add, Nat.cast_mul]
    norm_num [digitQ]

/-- `p_octal` returns the base-8 value of the octal run at the cursor. -/
theorem p_octal_run (c : Context) :
    p_octal c = (((octValueN (octalRun c).1 : ℕ) : ℚ), (octalRun c).2) := by
  rw [p_octal, octLoop_run, octalRun, octValueN, octValueN_cast, Nat.cast_zero]

/-- `fracLoop` adds the divisor-doubling weighted value of the octal run. -/
theorem fracLoop_run : ∀ f (n divisor : ℚ) c,
    fracLoop f n divisor c =
      (n + fracValue (octalRunF f c).1 divisor,
        divisor * 2 ^ (octalRunF f c).1.length, (octalRunF f c).2) := by
  intro f
  induction f with
  | zero =>
    intro n divisor c
    simp [fracLoop, octalRunF, fracValue]
  | succ f ih =>
    intro n divisor c
    rw [fracLoop, octalRunF]
    by_cases hoc : isOctal (peek c) = true
    · rw [if_pos hoc, if_pos hoc, ih]
      simp only [Prod.mk.injEq, fracValue, List.length_cons, and_true]
      exact ⟨by ring, by ring⟩
    · rw [if_neg hoc, if_neg hoc]
      simp [fracValue]

/-- The fractional block refines its spec-side digit-run form. -/
theorem p_double_frac_eq (n : ℚ) (c3 : Context) :
    p_double_frac n c3 =
      (p_double_frac_spec c3).map (fun fds => (n + fracValue fds.1 8, fds.2)) := by
  rw [p_double_frac, p_double_frac_spec]
  by_cases hdot : peek c3 = '.'
  · rw [if_pos hdot, if_pos hdot]
    by_cases hoc : isOctal (peek (p_char_ignore c3)) = true
    · rw [if_neg (by simp [hoc]), if_neg (by simp [hoc])]
      rw [fracLoop_run]
      simp only [Except.map, octalRun]
    · rw [if_pos (by simp [hoc]), if_pos (by simp [hoc])]
      rfl
  · rw [if_neg hdot, if_neg hdot]
    simp [Except.map, fracValue]

/-- `pow(010, ·)` of a sign-adjusted natural equals the signed z-power. -/
theorem pow8_if (P : Prop) [Decidable P] (k : ℕ) :
    pow8 (if P then -(k : ℚ) else (k : ℚ)) =
      (8 : ℚ) ^ ((if P then (-1 : ℤ) else 1) * (k : ℤ)) := by
  by_cases h : P
  · rw [if_pos h, if_pos h, pow8, Rat.neg_num, Rat.num_natCast]
    congr 1
    ring
  · rw [if_neg h, if_neg h, pow8, Rat.num_natCast]
    congr 1
    ring

/-- `isneg ? -x : x` as multiplication by a sign. -/
theorem sign_if (P : Prop) [Decidable P] (x : ℚ) :
    (if P then -x else x) = (if P then (-1 : ℚ) else 1) * x := by
  by_cases h : P <;> simp [h]

/-- The exponent block refines its spec-side sign/digit-run form. -/
theorem p_double_exp_eq (isneg : Bool) (n : ℚ) (c5 : Context) :
    p_double_exp isneg n c5 =
      (p_double_exp_spec c5).map (fun ec9 =>
        ((if isneg then (-1 : ℚ) else 1) *
          (n * (match ec9.1 with
                | Option.none => (1 : ℚ)
                | some pe => (8 : ℚ) ^ ((if pe.1 then (-1 : ℤ) else 1) * (octValueN pe.2 : ℤ)))),
          ec9.2)) := by
  rw [p_double_exp, p_double_exp_spec]
  by_cases hv : peek c5 = 'v' ∨ peek c5 = 'V'
  · rw [if_pos hv, if_pos hv]
    cases hch : p_chars c5 4 with
    | none => rfl
    | some sc6 =>
      dsimp only []
      by_cases hvery : sc6.1.map Char.toLower = "very".toList
      · have hv1 : ¬¬(sc6.1.map Char.toLower = "very".toList) := by simp [hvery]
        rw [if_neg hv1, if_neg hv1]
        by_cases hoc : isOctal (peek (pde_c8 sc6.2)) = true
        · have hoc1 : ¬¬(isOctal (peek (pde_c8 sc6.2)) = true) := by simp [hoc]
          rw [if_neg hoc1, if_neg hoc1]
          rw [p_octal_run]
          simp only [Except.map]
          dsimp only []
          simp only [Except.ok.injEq, Prod.mk.injEq, and_true]
          rw [sign_if (isneg = true), pow8_if]
          simp only [decide_eq_true_eq]
        · rw [if_pos hoc, if_pos hoc]
          rfl
      · rw [if_pos hvery, if_pos hvery]
        rfl
  · rw [if_neg hv, if_neg hv]
    simp only [Except.map]
    simp only [Except.ok.injEq, Prod.mk.injEq, and_true]
    rw [sign_if (isneg = true), mul_one]

/-- The integer part refines its spec-side digit-run form. -/
theorem pd_int_eq (c0 : Context) :
    pd_int c0 = (((octValueN (pd_int_spec c0).1 : ℕ) : ℚ), (pd_int_spec c0).2) := by
  rw [pd_int, pd_int_spec]
  by_cases h0 : peek (pd_c2 c0) = '0'
  · rw [if_pos h0, if_pos h0]
    simp [octValueN]
  · rw [if_neg h0, if_neg h0]
    exact p_octal_run _

set_option maxHeartbeats 2000000 in
/-- `p_double` computes exactly the spec-side number formula, with
identical consumption and identical errors. -/
theorem p_double_eq (c0 : Context) : p_double c0 = p_double_spec c0 := by
  conv_lhs => rw [p_double]
  conv_rhs => rw [p_double_spec]
  rw [pd_c3, pd_int_eq]
  rw [p_double_frac_eq]
  cases hfs : p_double_frac_spec (maybe_p_whitespace (pd_int_spec c0).2) with
  | error e => rfl
  | ok fds =>
    simp only [Except.map]
    rw [p_double_exp_eq]
    cases hes : p_double_exp_spec fds.2 with
    | error e => rfl
    | ok ec9 =>
      simp only [Except.map]
      rw [specNumber.eq_def]

end Cdson

namespace Cdson

/-! ## Free/alloc balance (claim C8) -/

mutual

/-- `dson_free` performs exactly as many `free` calls on a tree as the
parser performed `CALLOC`s to build it, for every nesting shape. -/
theorem freeCount_eq_allocCount : (t : DsonValue) → freeCount t = allocCount t
  | .string _ => rfl
  | .double _ => rfl
  | .bool _ => rfl
  | .none => rfl
  | .array elts => by
    rw [freeCount, allocCount, freeCountList_eq_allocCountList elts]
  | .dict entries => by
    rw [freeCount, allocCount, freeCountEntries_eq_allocCountEntries entries]

theorem freeCountList_eq_allocCountList : (l : List DsonValue) →
    freeCountList l = allocCountList l
  | [] => rfl
  | v :: r => by
    rw [freeCountList, allocCountList, freeCount_eq_allocCount v,
      freeCountList_eq_allocCountList r]

theorem freeCountEntries_eq_allocCountEntries : (l : List (List Char × DsonValue)) →
    freeCountEntries l = allocCountEntries l
  | [] => rfl
  | e :: r => by
    rw [freeCountEntries, allocCountEntries, freeCount_eq_allocCount e.2,
      freeCountEntries_eq_allocCountEntries r]

end

/-! ## The `dson_dict_get` scan (claim C5) -/

/-- The scan of `dson_dict_get` returns the value of the *last* matching
entry (it never short-circuits), and returns the uninitialized local `v`
unchanged when no entry matches. -/
theorem dict_get_foldl : ∀ (entries : List (List Char × DsonValue)) (key : List Char)
    (v0 : Option DsonValue),
    entries.foldl (fun v e => if e.1 = key then some e.2 else v) v0 =
      match entries.reverse.find? (fun e => decide (e.1 = key)) with
      | some e => some e.2
      | Option.none => v0 := by
  intro entries
  induction entries with
  | nil =>
    intro key v0
    rfl
  | cons e r ih =>
    intro key v0
    rw [List.foldl_cons, ih, List.reverse_cons, List.find?_append]
    cases hfind : r.reverse.find? (fun e => decide (e.1 = key)) with
    | some e1 => rfl
    | none =>
      by_cases hk : e.1 = key
      · simp [List.find?, hk]
      · simp [List.find?, hk]

/-! ## Top-level behavior of `dson_parse` (claims C6, C10) -/

/-- On every failure `dson_parse` leaves the out-value `none`; when the
NUL-terminator check passes, the reported error carries a byte offset. -/
theorem dson_parse_fail (input : List Char) (length : Nat) (danger : Bool)
    (out : Option DsonValue) (e : PError) (l : Nat)
    (h : dson_parse input length danger = (out, some e, l)) :
    out = Option.none ∧ (input.getD length '\x00' = '\x00' → e.positioned = true) := by
  rw [dson_parse] at h
  split at h
  · rename_i hnul
    simp only [Prod.mk.injEq, Option.some.injEq] at h
    exact ⟨h.1.symm, fun hn => absurd hn hnul⟩
  · rename_i hnul
    split at h
    · rename_i el heq
      simp only [Prod.mk.injEq, Option.some.injEq] at h
      refine ⟨h.1.symm, fun _ => ?_⟩
      rw [← h.2.1]
      refine (parsers_err (3 * length + 3)).1 _ 0 el ?_ ?_ heq
      · simp only [List.length_take]
        omega
      · exact Nat.zero_le _
    · rename_i vcl heq
      simp only [Prod.mk.injEq] at h
      exact absurd h.2.1 (by simp)

/-- `dson_parse` delivers the single `p_value` result as-is: there is no
end-of-input check after it, so trailing bytes are never examined. -/
theorem dson_parse_ok (input : List Char) (length : Nat) (danger : Bool)
    (vcl : DsonValue × Context × Nat)
    (hnul : input.getD length '\x00' = '\x00')
    (h : p_value (3 * length + 3)
        { buf := input.take length, off := 0, danger := danger } 0 = .ok vcl) :
    dson_parse input length danger = (some vcl.1, Option.none, vcl.2.2) := by
  rw [dson_parse, if_neg (not_not_intro hnul), h]

end Cdson

namespace Cdson

/-! ## The claims -/

/-- The value of a digit character as a rational, computed from its code. -/
theorem digitQ_eq (ch : Char) (k : ℕ) (h : ch.toNat - '0'.toNat = k) :
    digitQ ch = (k : ℚ) := by
  rw [digitQ, h]

/-- C1: for every number token the parsed double equals the spec formula —
the base-8 value of the integer octal run (a lone `'0'` contributing 0),
plus fractional digits weighted `d/8, d/16, d/32, …` (divisor starting at
8 and doubling per digit), multiplied by `8^exponent` when a `very`
exponent with optional sign is present, and negated if a leading `'-'`
was present (`p_double = p_double_spec`, whose value is the closed
formula `specNumber`); in particular `parse("7") = 7`, `parse("-7") = -7`,
`parse("10") = 8`, `parse("1.4") = 3/2`, `parse("2very2") = 128`, and
`parse("2very-1") = 1/4`. -/
theorem C1_number_semantics :
    (∀ c0 : Context, p_double c0 = p_double_spec c0) ∧
    dson_parse "7".toList 1 false = (some (.double 7), Option.none, 1) ∧
    dson_parse "-7".toList 2 false = (some (.double (-7)), Option.none, 1) ∧
    dson_parse "10".toList 2 false = (some (.double 8), Option.none, 1) ∧
    dson_parse "1.4".toList 3 false = (some (.double (3 / 2)), Option.none, 1) ∧
    dson_parse "2very2".toList 6 false = (some (.double 128), Option.none, 1) ∧
    dson_parse "2very-1".toList 7 false = (some (.double (1 / 4)), Option.none, 1) := by
  refine ⟨p_double_eq, ?_, ?_, ?_, ?_, ?_, ?_⟩
  · rw [show dson_parse "7".toList 1 false =
        (some (.double (0 * 8 + digitQ '7')), Option.none, 1) from rfl,
      show (0 * 8 + digitQ '7' : ℚ) = 7 from by
        simp only [digitQ_eq '7' 7 (by decide)]
        norm_num]
  · rw [show dson_parse "-7".toList 2 false =
        (some (.double (-(0 * 8 + digitQ '7'))), Option.none, 1) from rfl,
      show (-(0 * 8 + digitQ '7') : ℚ) = -7 from by
        simp only [digitQ_eq '7' 7 (by decide)]
        norm_num]
  · rw [show dson_parse "10".toList 2 false =
        (some (.double ((0 * 8 + digitQ '1') * 8 + digitQ '0')), Option.none, 1) from rfl,
      show ((0 * 8 + digitQ '1') * 8 + digitQ '0' : ℚ) = 8 from by
        simp only [digitQ_eq '1' 1 (by decide), digitQ_eq '0' 0 (by decide)]
        norm_num]
  · rw [show dson_parse "1.4".toList 3 false =
        (some (.double ((0 * 8 + digitQ '1') + digitQ '4' / 8)), Option.none, 1) from rfl,
      show ((0 * 8 + digitQ '1') + digitQ '4' / 8 : ℚ) = 3 / 2 from by
        simp only [digitQ_eq '1' 1 (by decide), digitQ_eq '4' 4 (by decide)]
        norm_num]
  · rw [show dson_parse "2very2".toList 6 false =
        (some (.double ((0 * 8 + digitQ '2') * pow8 (0 * 8 + digitQ '2'))),
          Option.none, 1) from rfl,
      show ((0 * 8 + digitQ '2') * pow8 (0 * 8 + digitQ '2') : ℚ) = 128 from by
        simp only [digitQ_eq '2' 2 (by decide)]
        rw [show ((0 : ℚ) * 8 + ((2 : ℕ) : ℚ)) = 2 from by norm_num, pow8,
          show ((2 : ℚ)).num = 2 from rfl]
        norm_num]
  · rw [show dson_parse "2very-1".toList 7 false =
        (some (.double ((0 * 8 + digitQ '2') * pow8 (-(0 * 8 + digitQ '1')))),
          Option.none, 1) from rfl,
      show ((0 * 8 + digitQ '2') * pow8 (-(0 * 8 + digitQ '1')) : ℚ) = 1 / 4 from by
        simp only [digitQ_eq '2' 2 (by decide), digitQ_eq '1' 1 (by decide)]
        rw [show ((0 : ℚ) * 8 + ((2 : ℕ) : ℚ)) = 2 from by norm_num,
          show (-((0 : ℚ) * 8 + ((1 : ℕ) : ℚ))) = -1 from by norm_num, pow8,
          show ((-1 : ℚ)).num = -1 from rfl]
        norm_num]

/-- C2: the claim says the 6 bytes immediately following the `\u` in the
input are read as the escape's octal digits, with `\u000101` decoding to
the single character with codepoint 0101 octal. The code instead reads
the digits through the *live cursor*, which at decode time already sits
past the string's closing quote: on the 10-byte input `"\u000101"` with
the unsafe flag, every `p_octal` call of the accumulator loop sees the
terminator, the accumulator stays 0, a lone NUL byte is emitted, and the
six digit bytes are then copied literally by later loop iterations — the
parse succeeds with the 7-byte string `\x00 0 0 0 1 0 1`, not with
`['A']`. This theorem records that behavior. -/
theorem C2_unicode_escape_bug :
    dson_parse ("\"\\u000101\"".toList) 10 true =
      (some (.string ['\x00', '0', '0', '0', '1', '0', '1']), Option.none, 2) :=
  rfl

/-- C3: `\b` and `\u` are accepted only with the unsafe flag and are a
hard error without it; `\f`, `\n`, `\r`, `\t` map to their control
characters regardless of the flag; any other escape character is an
error. The first conjunct states this for one step of the decode loop of
`p_string`; the rest are the claim's concrete instances: `"\b"` fails
with unsafe=false, succeeds with a single backspace with unsafe=true,
`"\n"` decodes in safe mode, and `"\q"` is an error even in unsafe
mode. -/
theorem C3_escape_gating :
    (∀ (f : Nat) (c : Context) (p endIdx : Nat) (out : List Char),
      p < endIdx → c.buf.getD p '\x00' = '\\' →
      (((c.buf.getD (p + 1) '\x00' = 'b' ∨ c.buf.getD (p + 1) '\x00' = 'u') →
          c.danger = false →
          decodeLoop (f + 1) c p endIdx out =
            .error (.at c.off "unrecognized or forbidden escape")) ∧
        (c.buf.getD (p + 1) '\x00' = 'b' → c.danger = true →
          decodeLoop (f + 1) c p endIdx out =
            decodeLoop f c (p + 2) endIdx (out ++ ['\x08'])) ∧
        (c.buf.getD (p + 1) '\x00' = 'f' →
          decodeLoop (f + 1) c p endIdx out =
            decodeLoop f c (p + 2) endIdx (out ++ ['\x0c'])) ∧
        (c.buf.getD (p + 1) '\x00' = 'n' →
          decodeLoop (f + 1) c p endIdx out =
            decodeLoop f c (p + 2) endIdx (out ++ ['\n'])) ∧
        (c.buf.getD (p + 1) '\x00' = 'r' →
          decodeLoop (f + 1) c p endIdx out =
            decodeLoop f c (p + 2) endIdx (out ++ ['\r'])) ∧
        (c.buf.getD (p + 1) '\x00' = 't' →
          decodeLoop (f + 1) c p endIdx out =
            decodeLoop f c (p + 2) endIdx (out ++ ['\t'])) ∧
        (∀ ch, c.buf.getD (p + 1) '\x00' = ch →
          ¬ ch ∈ ['"', '\\', '/', 'b', 'f', 'n', 'r', 't', 'u'] →
          decodeLoop (f + 1) c p endIdx out =
            .error (.at c.off "unrecognized or forbidden escape")))) ∧
    dson_parse ("\"\\b\"".toList) 4 false =
      (Option.none, some (.at 4 "unrecognized or forbidden escape"), 0) ∧
    dson_parse ("\"\\b\"".toList) 4 true = (some (.string ['\x08']), Option.none, 2) ∧
    dson_parse ("\"\\n\"".toList) 4 false = (some (.string ['\n']), Option.none, 2) ∧
    dson_parse ("\"\\q\"".toList) 4 true =
      (Option.none, some (.at 4 "unrecognized or forbidden escape"), 0) := by
  refine ⟨?_, rfl, rfl, rfl, rfl⟩
  intro f c p endIdx out hp hesc
  rw [List.getD_eq_getElem?_getD] at hesc
  refine ⟨?_, ?_, ?_, ?_, ?_, ?_, ?_⟩
  · intro hbu hdanger
    rcases hbu with hb | hu
    · rw [List.getD_eq_getElem?_getD] at hb
      simp +decide [decodeLoop, hp, hesc, hb, hdanger]
    · rw [List.getD_eq_getElem?_getD] at hu
      simp +decide [decodeLoop, hp, hesc, hu, hdanger]
  · intro hb hdanger
    rw [List.getD_eq_getElem?_getD] at hb
    simp +decide [decodeLoop, hp, hesc, hb, hdanger]
  · intro hf
    rw [List.getD_eq_getElem?_getD] at hf
    simp +decide [decodeLoop, hp, hesc, hf]
  · intro hn
    rw [List.getD_eq_getElem?_getD] at hn
    simp +decide [decodeLoop, hp, hesc, hn]
  · intro hr
    rw [List.getD_eq_getElem?_getD] at hr
    simp +decide [decodeLoop, hp, hesc, hr]
  · intro ht
    rw [List.getD_eq_getElem?_getD] at ht
    simp +decide [decodeLoop, hp, hesc, ht]
  · intro ch hch hmem
    rw [List.getD_eq_getElem?_getD] at hch
    simp only [List.mem_cons, List.not_mem_nil, or_false, not_or] at hmem
    obtain ⟨m1, m2, m3, m4, m5, m6, m7, m8, m9⟩ := hmem
    simp +decide [decodeLoop, hp, hesc, hch, m1, m2, m3, m4, m5, m6, m7, m8, m9]

/-- Concrete instances of the decode-step dispatch of C3: a `\f` escape
decodes in safe mode, and a `\b` escape is a hard error in safe mode. -/
theorem C3_escape_gating_witness :
    decodeLoop 2 ⟨['\\', 'f'], 0, false⟩ 0 2 [] =
      decodeLoop 1 ⟨['\\', 'f'], 0, false⟩ 2 2 ([] ++ ['\x0c']) ∧
    decodeLoop 2 ⟨['\\', 'b'], 0, false⟩ 0 2 [] =
      .error (.at 0 "unrecognized or forbidden escape") :=
  ⟨((C3_escape_gating.1 1 ⟨['\\', 'f'], 0, false⟩ 0 2 []
      (by decide) (by decide)).2.2.1) (by decide),
    ((C3_escape_gating.1 1 ⟨['\\', 'b'], 0, false⟩ 0 2 []
      (by decide) (by decide)).1) (Or.inl (by decide)) (by decide)⟩

/-- C4: the claim says every failed parse releases all allocations made
so far at every enclosing level. Counter-behavior: on the 12-byte input
`such "a" wow` (a dict whose first entry lacks the `is` keyword) the
parse fails at offset 11 with `expected is`, and the final allocation
ledger is 1, not 0 — `p_dict`'s failure path (the C `BURY`) frees the
stored entries and the three dict shells, but not the just-parsed key
string `"a"`, which leaks. -/
theorem C4_dict_key_leak :
    dson_parse ("such \"a\" wow".toList) 12 false =
      (Option.none, some (.at 11 "expected is"), 1) ∧
    (dson_parse ("such \"a\" wow".toList) 12 false).2.2 = 1 :=
  ⟨rfl, rfl⟩

/-- C5: the scan of `dson_dict_get` is a full left-to-right fold, so the
*last* matching entry wins — that part of the claim holds. But when no
entry matches, the claim's promised 'absent' indication does not exist:
the C local `dson_value *v` is never initialized and is returned
unwritten, so the result is whatever the stack held (the model's `v0`);
a garbage initial value is returned as-is. -/
theorem C5_dict_get_scan :
    (∀ (entries : List (List Char × DsonValue)) (key : List Char)
        (v0 : Option DsonValue),
      dson_dict_get (some entries) key v0 =
        match entries.reverse.find? (fun e => decide (e.1 = key)) with
        | some e => some e.2
        | Option.none => v0) ∧
    dson_dict_get (some [(['a'], .bool true), (['a'], .bool false)]) ['a']
      Option.none = some (.bool false) ∧
    (∀ v0 : Option DsonValue,
      dson_dict_get (some [(['a'], .bool true)]) ['b'] v0 = v0) ∧
    dson_dict_get (some [(['a'], .bool true)]) ['b'] (some (.double 5)) =
      some (.double 5) :=
  ⟨fun entries key v0 => dict_get_foldl entries key v0, rfl, fun _ => rfl, rfl⟩

/-- C6 (corrected): on every failure `dson_parse` leaves the caller's
out-value `none` — no partial Value ever escapes — and the error is
position-annotated whenever the NUL-terminator check passes. The
original claim's stronger reading ("including when input[length] is not
the NUL terminator") is false: that failure is a bare, position-free
message (see the counterexample). -/
theorem C6_failure_contract (input : List Char) (length : Nat) (danger : Bool)
    (out : Option DsonValue) (e : PError) (l : Nat)
    (h : dson_parse input length danger = (out, some e, l)) :
    out = Option.none ∧ (input.getD length '\x00' = '\x00' → e.positioned = true) :=
  dson_parse_fail input length danger out e l h

/-- The failure contract of C6 at a concrete failing input (`x`, which
no value dispatch accepts): the out-value is `none` and the error is
positioned. -/
theorem C6_failure_contract_witness :
    (Option.none : Option DsonValue) = Option.none ∧
    (PError.at 0 "unable to determine value type").positioned = true :=
  ⟨(C6_failure_contract "x".toList 1 false Option.none
      (.at 0 "unable to determine value type") 0 rfl).1,
    (C6_failure_contract "x".toList 1 false Option.none
      (.at 0 "unable to determine value type") 0 rfl).2 (by decide)⟩

/-- The original C6 is false for the NUL-terminator failure: on the
input `7x` with length 1, `input[length]` is `x`, and `dson_parse`
fails with the bare `strdup` message carrying no byte offset. -/
theorem C6_not_nul_counterexample :
    dson_parse ['7', 'x'] 1 false =
      (Option.none, some (.plain "input was not NUL-terminated"), 0) ∧
    (PError.plain "input was not NUL-terminated").positioned = false :=
  ⟨rfl, rfl⟩

/-- C7 (corrected): the UTF-8 encoder selects 1, 2, 3 or 4 output bytes
by comparing the codepoint against 0x80, 0x800, 0x10000 and 0x110000
(the octal literals 0200, 04000, 0200000, 04200000 of the source) — not
the claim's 0x20000 and 0x200000 — `write_utf8` emits exactly
`bytes_needed` bytes, and a codepoint at or beyond 0x110000 makes
`bytes_needed` 0, which `handle_escaped` reports as the malformed-
codepoint error. -/
theorem C7_utf8_thresholds :
    (∀ point : Nat, bytes_needed point =
      if point < 0x80 then 1 else if point < 0x800 then 2
      else if point < 0x10000 then 3 else if point < 0x110000 then 4 else 0) ∧
    (∀ point : Nat, (write_utf8 point).length = bytes_needed point) ∧
    (∀ (acc : ℚ) (c1 : Context), bytes_needed (castU32 acc) = 0 →
      handle_escaped_core acc c1 = .error (.at c1.off "malformed unicode escape")) := by
  have hlen : ∀ point : Nat, (write_utf8 point).length = bytes_needed point := by
    intro point
    have hb : bytes_needed point = 0 ∨ bytes_needed point = 1 ∨
        bytes_needed point = 2 ∨ bytes_needed point = 3 ∨ bytes_needed point = 4 := by
      rw [bytes_needed]
      split_ifs <;> simp
    rw [write_utf8]
    by_cases h4 : bytes_needed point = 4
    · rw [if_pos h4, h4]
      rfl
    · rw [if_neg h4]
      by_cases h3 : bytes_needed point = 3
      · rw [if_pos h3, h3]
        rfl
      · rw [if_neg h3]
        by_cases h2 : bytes_needed point = 2
        · rw [if_pos h2, h2]
          rfl
        · rw [if_neg h2]
          by_cases h1 : bytes_needed point = 1
          · rw [if_pos h1, h1]
            rfl
          · rw [if_neg h1]
            simp only [List.length_nil]
            omega
  refine ⟨fun point => rfl, hlen, ?_⟩
  intro acc c1 h0
  rw [handle_escaped_core, if_pos (by rw [hlen, h0])]

/-- The encoder at the claim-refuting codepoint 0x110000 (= 04200000
octal): `bytes_needed` is 0 and `handle_escaped_core` errors out. -/
theorem C7_utf8_thresholds_witness :
    bytes_needed (castU32 (1114112 : ℚ)) = 0 ∧
    handle_escaped_core (1114112 : ℚ) ⟨[], 0, false⟩ =
      .error (.at 0 "malformed unicode escape") :=
  ⟨by decide, C7_utf8_thresholds.2.2 (1114112 : ℚ) ⟨[], 0, false⟩ (by decide)⟩

/-- The original C7 thresholds are false: 0x10000 is below the claim's
3-byte threshold 0x20000, yet the encoder uses 4 bytes for it; and
0x110000 is below the claim's 4-byte threshold 0x200000, yet the encoder
does not support it at all. -/
theorem C7_threshold_counterexample :
    bytes_needed 0x10000 = 4 ∧ 0x10000 < 0x20000 ∧
    bytes_needed 0x110000 = 0 ∧ 0x110000 < 0x200000 := by
  decide

/-- C8: `dson_free` on a tree of any Array/Dictionary nesting shape
returns with the caller's handle cleared (`*v = NULL`) after performing
exactly `freeCount t` frees, which equals the `allocCount t` blocks the
parser allocated for the tree — nothing is leaked and nothing is freed
twice; it is safe on the empty/sentinel `DSON_NONE` value and on a NULL
handle; and once the handle is cleared, a second release performs no
`free` at all (it stops at the NULL read — `nullDeref` — before any
free call), so it cannot double-free. -/
theorem C8_free_contract :
    (∀ t : DsonValue, dson_free (some (some t)) = .ok (some Option.none) (freeCount t)) ∧
    (∀ t : DsonValue, freeCount t = allocCount t) ∧
    dson_free (some (some DsonValue.none)) = .ok (some Option.none) 1 ∧
    dson_free Option.none = .ok Option.none 0 ∧
    dson_free (some Option.none) = .nullDeref :=
  ⟨fun _ => rfl, freeCount_eq_allocCount, rfl, rfl, rfl⟩

/-- C9: the cursor's offset is monotonically non-decreasing across every
parsing function — character consumption (`p_chars`, `p_char`),
whitespace skipping, and every primitive and structural parser; the
buffer and flag are never changed and the offset never rewinds
(`Adv`). -/
theorem C9_offset_monotone :
    (∀ c : Context, Adv c (maybe_p_whitespace c)) ∧
    (∀ c : Context, Adv c (p_char_ignore c)) ∧
    (∀ (c : Context) (n : Nat) (sc : List Char × Context),
      p_chars c n = some sc → Adv c sc.2) ∧
    (∀ (c : Context) (live : Nat) (scl : List Char × Context × Nat),
      p_string c live = .ok scl → Adv c scl.2.1) ∧
    (∀ (c0 : Context) (nc : ℚ × Context), p_double c0 = .ok nc → Adv c0 nc.2) ∧
    (∀ (f : Nat) (c : Context) (live : Nat) (vcl : DsonValue × Context × Nat),
      p_value f c live = .ok vcl → Adv c vcl.2.1) ∧
    (∀ (f : Nat) (c : Context) (live : Nat) (acl : List DsonValue × Context × Nat),
      p_array f c live = .ok acl → Adv c acl.2.1) ∧
    (∀ (f : Nat) (c : Context) (live : Nat)
        (dcl : List (List Char × DsonValue) × Context × Nat),
      p_dict f c live = .ok dcl → Adv c dcl.2.1) := by
  refine ⟨maybe_p_whitespace_adv, p_char_ignore_adv, ?_, ?_, ?_, ?_, ?_, ?_⟩
  · intro c n sc h
    obtain ⟨hb, hd, ho, hl, -⟩ := p_chars_some2 h
    exact ⟨hb, hd, by omega, Or.inl hl⟩
  · intro c live scl h
    exact (p_string_ok h).1
  · intro c0 nc h
    exact p_double_ok h
  · intro f c live vcl h
    exact ((parsers_mono f).1 c live vcl h).1
  · intro f c live acl h
    exact ((parsers_mono f).2.1 c live acl h).1
  · intro f c live dcl h
    exact ((parsers_mono f).2.2.2.1 c live dcl h).1

/-- The monotonicity of C9 at a concrete parse: `p_value` on the 1-byte
buffer `7` moves the cursor from offset 0 to offset 1, an `Adv` step. -/
theorem C9_offset_monotone_witness :
    Adv ⟨['7'], 0, false⟩ ⟨['7'], 1, false⟩ :=
  C9_offset_monotone.2.2.2.2.2.1 6 ⟨['7'], 0, false⟩ 0
    (.double (0 * 8 + digitQ '7'), ⟨['7'], 1, false⟩, 1) rfl

/-- C10: `dson_parse` consumes exactly one value from the start of the
input and performs no end-of-input check afterward: whenever the single
`p_value` call succeeds, its result is delivered as-is, with the final
cursor position never examined; in particular `7x` (non-whitespace
garbage after the value, NUL-terminated at length 2) parses to the same
value as `7`. -/
theorem C10_trailing_bytes_ignored :
    (∀ (input : List Char) (length : Nat) (danger : Bool)
        (vcl : DsonValue × Context × Nat),
      input.getD length '\x00' = '\x00' →
      p_value (3 * length + 3)
          { buf := input.take length, off := 0, danger := danger } 0 = .ok vcl →
      dson_parse input length danger = (some vcl.1, Option.none, vcl.2.2)) ∧
    dson_parse "7x".toList 2 false =
      (some (.double (0 * 8 + digitQ '7')), Option.none, 1) ∧
    (dson_parse "7x".toList 2 false).1 = (dson_parse "7".toList 1 false).1 :=
  ⟨fun input length danger vcl h1 h2 => dson_parse_ok input length danger vcl h1 h2,
    rfl, rfl⟩

/-- The C10 passthrough at the concrete input `7x`: the `p_value`
success on the prefix `7` is delivered unchanged despite the trailing
garbage byte. -/
theorem C10_trailing_bytes_witness :
    dson_parse "7x".toList 2 false =
      (some (DsonValue.double (0 * 8 + digitQ '7')), Option.none, 1) :=
  C10_trailing_bytes_ignored.1 "7x".toList 2 false
    (.double (0 * 8 + digitQ '7'), ⟨['7', 'x'], 1, false⟩, 1) rfl rfl

end Cdson
